import Mathlib

/-!
Verification of the syntax-highlighting pipeline in `src/components/CodeBlock.tsx`.

The source function `highlightCode` first escapes the six characters
`& < > " ' /` via `escapeHtml`, then applies nine global regex
substitutions in order: single-line comments, block comments, string
literals, keywords, types, numbers, function call sites, capitalized
identifiers, and decorators.  Each JavaScript `String.replace` with a
global regex is modelled as a left-to-right scanner over `List Char`
that at each position either fires the pass's pattern (consuming the
matched text and emitting the replacement) or copies one character.
JS word-boundary (`\b`) semantics, greedy/lazy repetition and the
negative lookahead guard `(?![^<]*>)` are reproduced per pattern.
-/

namespace Highlight

/-- JS `\w` (ASCII): `[A-Za-z0-9_]`. -/
def isWordChar (c : Char) : Bool := c.isAlphanum || c = '_'

/-- First character of a JS identifier in the source's patterns: `[a-zA-Z_$]`. -/
def isIdentStart (c : Char) : Bool := c.isAlpha || c = '_' || c = '$'

/-- Identifier continuation: `[a-zA-Z0-9_$]`. -/
def isIdentChar (c : Char) : Bool := c.isAlphanum || c = '_' || c = '$'

/-- JS `\s`: the ECMA-262 WhiteSpace and LineTerminator characters — tab, LF,
VT, FF, CR, space, NBSP, Ogham space mark, the Zs spaces U+2000–U+200A, line
separator, paragraph separator, narrow no-break space, medium mathematical
space, ideographic space, and ZWNBSP. -/
def isWsChar (c : Char) : Bool :=
  c = ' ' || c = '\t' || c = '\n' || c = '\r' || c = Char.ofNat 11 || c = Char.ofNat 12 ||
  c = Char.ofNat 0xA0 || c = Char.ofNat 0x1680 ||
  (decide (0x2000 ≤ c.toNat) && decide (c.toNat ≤ 0x200A)) ||
  c = Char.ofNat 0x2028 || c = Char.ofNat 0x2029 || c = Char.ofNat 0x202F ||
  c = Char.ofNat 0x205F || c = Char.ofNat 0x3000 || c = Char.ofNat 0xFEFF

/-- JS line terminators (excluded by `.`, matched-before by multiline `$`). -/
def isLineTerm (c : Char) : Bool :=
  c = '\n' || c = '\r' || c = Char.ofNat 0x2028 || c = Char.ofNat 0x2029

/-- `\b` at the start of a match: char before the position (none = string start)
against the first matched char; a boundary needs exactly one side to be a word char. -/
def bnd (prev : Option Char) (c : Char) : Bool :=
  match prev with
  | none => isWordChar c
  | some p => xor (isWordChar p) (isWordChar c)

/-- `\b` at the end of a match: last matched char against the following char. -/
def endBnd (w : List Char) (r : List Char) : Bool :=
  match w.getLast?, r.head? with
  | some a, some b => xor (isWordChar a) (isWordChar b)
  | some a, none => isWordChar a
  | none, _ => false

/-- The lookahead body `[^<]*>`: is there a `>` before the next `<`?
The guard `(?![^<]*>)` succeeds exactly when this is `false`. -/
def hasCBO : List Char → Bool
  | [] => false
  | c :: t => if c = '>' then true else if c = '<' then false else hasCBO t

/-- Match a literal prefix, returning the remainder. -/
def dropP : List Char → List Char → Option (List Char)
  | [], t => some t
  | _, [] => none
  | p :: ps, c :: t => if p = c then dropP ps t else none

/-- The single-quote character (written via its code point). -/
def squote : Char := Char.ofNat 39

/-- `escapeHtml`'s entity map: the replacement for one character. -/
def escChar (c : Char) : List Char :=
  if c = '&' then "&amp;".data
  else if c = '<' then "&lt;".data
  else if c = '>' then "&gt;".data
  else if c = '"' then "&quot;".data
  else if c = squote then "&#x27;".data
  else if c = '/' then "&#x2F;".data
  else [c]

/-- `escapeHtml`: `text.replace(/[&<>"'/]/g, m => htmlEntities[m])`. -/
def escapeHtml : List Char → List Char
  | [] => []
  | c :: t => escChar c ++ escapeHtml t

/-- Inverse of the six escape substitutions: at `&`, decode the entity whose
body follows; otherwise copy the character.  Fuel-based recursion (each step
consumes at least one character, so fuel = input length suffices). -/
def decodeAux : Nat → List Char → List Char
  | 0, t => t
  | Nat.succ n, t =>
    match t with
    | [] => []
    | c :: t' =>
      if c = '&' then
        match dropP ['a', 'm', 'p', ';'] t' with
        | some r => '&' :: decodeAux n r
        | none =>
          match dropP ['l', 't', ';'] t' with
          | some r => '<' :: decodeAux n r
          | none =>
            match dropP ['g', 't', ';'] t' with
            | some r => '>' :: decodeAux n r
            | none =>
              match dropP ['q', 'u', 'o', 't', ';'] t' with
              | some r => '"' :: decodeAux n r
              | none =>
                match dropP ['#', 'x', '2', '7', ';'] t' with
                | some r => squote :: decodeAux n r
                | none =>
                  match dropP ['#', 'x', '2', 'F', ';'] t' with
                  | some r => '/' :: decodeAux n r
                  | none => c :: decodeAux n t'
      else c :: decodeAux n t'

/-- Decode the six escape sequences back to their characters. -/
def decodeEntities (t : List Char) : List Char := decodeAux t.length t

/-! ### Tag constants (the literal replacement markup of each pass) -/

def grayBody : List Char := "span class=\"text-gray-500 italic\"".data
def greenBody : List Char := "span class=\"text-green-400\"".data
def purpleBody : List Char := "span class=\"text-purple-400\"".data
def cyanBody : List Char := "span class=\"text-cyan-400\"".data
def orangeBody : List Char := "span class=\"text-orange-400\"".data
def yellowBody : List Char := "span class=\"text-yellow-400\"".data
def blueBody : List Char := "span class=\"text-blue-400\"".data
def pinkBody : List Char := "span class=\"text-pink-400\"".data
def closeBody : List Char := "/span".data

/-- The eight opening-tag bodies inserted by the passes. -/
def openBodies : List (List Char) :=
  [grayBody, greenBody, purpleBody, cyanBody, orangeBody, yellowBody, blueBody, pinkBody]

/-- An opening tag from its body. -/
def mkTag (b : List Char) : List Char := '<' :: b ++ ['>']

def spanClose : List Char := mkTag closeBody

/-! ### The word lists of the keyword and type passes (from the source). -/

def kwWords : List (List Char) :=
  ["class".data, "constructor".data, "extends".data, "implements".data, "interface".data,
   "function".data, "const".data, "let".data, "var".data, "if".data, "else".data,
   "return".data, "new".data, "this".data, "super".data, "import".data, "export".data,
   "from".data, "async".data, "await".data, "try".data, "catch".data, "throw".data,
   "public".data, "private".data, "protected".data, "static".data, "readonly".data,
   "type".data, "namespace".data, "enum".data, "abstract".data, "as".data, "break".data,
   "case".data, "continue".data, "debugger".data, "default".data, "delete".data,
   "do".data, "finally".data, "for".data, "in".data, "instanceof".data, "switch".data,
   "typeof".data, "void".data, "while".data, "with".data, "yield".data]

def tyWords : List (List Char) :=
  ["string".data, "number".data, "boolean".data, "any".data, "void".data, "never".data,
   "unknown".data, "object".data, "symbol".data, "null".data, "undefined".data,
   "true".data, "false".data, "Array".data, "Object".data, "Promise".data, "Map".data,
   "Set".data, "Date".data, "RegExp".data, "Error".data, "JSON".data, "Math".data,
   "console".data]

/-! ### Per-pass match functions.

Each `tryX prev t` attempts the pass's regex at the current position:
`prev` is the input character just before the position (for `\b`), and a
successful result is `(consumed, output, rest)` where `t = consumed ++ rest`
and `output` is the replacement text. -/

/-- Single-line comments: `/(\/\/.*$)/gm`. -/
def tryCom1 (_ : Option Char) (t : List Char) :
    Option (List Char × List Char × List Char) :=
  match dropP ['/', '/'] t with
  | some r0 =>
    let content := r0.takeWhile (fun c => !isLineTerm c)
    let rest := r0.dropWhile (fun c => !isLineTerm c)
    let m := '/' :: '/' :: content
    some (m, mkTag grayBody ++ m ++ spanClose, rest)
  | none => none

/-- Lazy scan for the first `*/` in a block comment. -/
def findBlockEnd : List Char → Option (List Char × List Char)
  | '*' :: '/' :: r => some ([], r)
  | c :: t =>
    match findBlockEnd t with
    | some (a, r) => some (c :: a, r)
    | none => none
  | [] => none

/-- Block comments: `/(\/\*[\s\S]*?\*\/)/g`. -/
def tryCom2 (_ : Option Char) (t : List Char) :
    Option (List Char × List Char × List Char) :=
  match dropP ['/', '*'] t with
  | some r0 =>
    match findBlockEnd r0 with
    | some (content, rest) =>
      let m := '/' :: '*' :: (content ++ ['*', '/'])
      some (m, mkTag grayBody ++ m ++ spanClose, rest)
    | none => none
  | none => none

/-- One quoted alternative of the string pass: `delim[^&]*delim`. -/
def tryStrAlt (delim : List Char) (t : List Char) : Option (List Char × List Char) :=
  match dropP delim t with
  | some r0 =>
    let content := r0.takeWhile (fun c => c ≠ '&')
    let r1 := r0.dropWhile (fun c => c ≠ '&')
    match dropP delim r1 with
    | some rest => some (delim ++ content ++ delim, rest)
    | none => none
  | none => none

/-- Backtick alternative of the string pass. -/
def tryBacktick (t : List Char) : Option (List Char × List Char) :=
  match t with
  | b :: r0 =>
    if b = '`' then
      let content := r0.takeWhile (fun c => c ≠ '`')
      match r0.dropWhile (fun c => c ≠ '`') with
      | b2 :: rest => if b2 = '`' then some ('`' :: content ++ ['`'], rest) else none
      | [] => none
    else none
  | [] => none

/-- String literals: `/(&quot;[^&]*&quot;|&#x27;[^&]*&#x27;|`[^`]*`)/g`. -/
def tryStr (_ : Option Char) (t : List Char) :
    Option (List Char × List Char × List Char) :=
  match tryStrAlt "&quot;".data t with
  | some (m, r) => some (m, mkTag greenBody ++ m ++ spanClose, r)
  | none =>
    match tryStrAlt "&#x27;".data t with
    | some (m, r) => some (m, mkTag greenBody ++ m ++ spanClose, r)
    | none =>
      match tryBacktick t with
      | some (m, r) => some (m, mkTag greenBody ++ m ++ spanClose, r)
      | none => none

/-- First word of a list matching at `t` with a trailing `\b`. -/
def matchWordList : List (List Char) → List Char → Option (List Char × List Char)
  | [], _ => none
  | w :: ws, t =>
    match dropP w t with
    | some r => if endBnd w r then some (w, r) else matchWordList ws t
    | none => matchWordList ws t

/-- Shared shape of the keyword and type passes:
`\b(w1|w2|...)\b(?![^<]*>)` replaced by `tag$1</span>`. -/
def tryWords (tag : List Char) (words : List (List Char)) (prev : Option Char)
    (t : List Char) : Option (List Char × List Char × List Char) :=
  match t.head? with
  | none => none
  | some c =>
    if bnd prev c then
      match matchWordList words t with
      | some (w, r) => if hasCBO r then none else some (w, tag ++ w ++ spanClose, r)
      | none => none
    else none

def tryKw : Option Char → List Char → Option (List Char × List Char × List Char) :=
  tryWords (mkTag purpleBody) kwWords

def tryType : Option Char → List Char → Option (List Char × List Char × List Char) :=
  tryWords (mkTag cyanBody) tyWords

/-- Numbers: `/\b(\d+)\b(?![^<]*>)/g`. -/
def tryNum (prev : Option Char) (t : List Char) :
    Option (List Char × List Char × List Char) :=
  match t.head? with
  | none => none
  | some c =>
    if bnd prev c && c.isDigit then
      let ds := t.takeWhile Char.isDigit
      let r := t.dropWhile Char.isDigit
      if endBnd ds r && !hasCBO r then
        some (ds, mkTag orangeBody ++ ds ++ spanClose, r)
      else none
    else none

/-- Call sites: `/\b([a-zA-Z_$][a-zA-Z0-9_$]*)\s*\((?![^<]*>)/g`,
replaced by `tag$1</span>(` — note the matched whitespace is not re-emitted. -/
def tryFun (prev : Option Char) (t : List Char) :
    Option (List Char × List Char × List Char) :=
  match t.head? with
  | none => none
  | some c =>
    if bnd prev c && isIdentStart c then
      let ident := t.takeWhile isIdentChar
      let r1 := t.dropWhile isIdentChar
      let ws := r1.takeWhile isWsChar
      match r1.dropWhile isWsChar with
      | '(' :: r3 =>
        if hasCBO r3 then none
        else some (ident ++ ws ++ ['('],
                   mkTag yellowBody ++ ident ++ spanClose ++ ['('], r3)
      | _ => none
    else none

/-- Backtracking over the greedy `[a-zA-Z0-9_$]*` of the class-name pass:
candidates are `c :: preRev.reverse` with the unconsumed tail moved to `r`,
longest first; a candidate needs the trailing `\b` and the lookahead guard. -/
def shrinkClass (c : Char) : List Char → List Char → Option (List Char × List Char)
  | preRev, r =>
    let w := c :: preRev.reverse
    if endBnd w r && !hasCBO r then some (w, r)
    else
      match preRev with
      | [] => none
      | x :: pre' => shrinkClass c pre' (x :: r)

/-- Class names: `/\b([A-Z][a-zA-Z0-9_$]*)\b(?![^<]*>)/g`. -/
def tryClass (prev : Option Char) (t : List Char) :
    Option (List Char × List Char × List Char) :=
  match t with
  | [] => none
  | c :: t' =>
    if bnd prev c && c.isUpper then
      let run := t'.takeWhile isIdentChar
      let r0 := t'.dropWhile isIdentChar
      match shrinkClass c run.reverse r0 with
      | some (w, rest) => some (w, mkTag blueBody ++ w ++ spanClose, rest)
      | none => none
    else none

/-- Backtracking for the decorator pass (no `\b`, only the guard). -/
def shrinkDec (c : Char) : List Char → List Char → Option (List Char × List Char)
  | preRev, r =>
    let w := '@' :: c :: preRev.reverse
    if !hasCBO r then some (w, r)
    else
      match preRev with
      | [] => none
      | x :: pre' => shrinkDec c pre' (x :: r)

/-- Decorators: `/(@[a-zA-Z_$][a-zA-Z0-9_$]*)(?![^<]*>)/g`. -/
def tryDec (_ : Option Char) (t : List Char) :
    Option (List Char × List Char × List Char) :=
  match t with
  | a :: c :: t' =>
    if a = '@' && isIdentStart c then
      let run := t'.takeWhile isIdentChar
      let r0 := t'.dropWhile isIdentChar
      match shrinkDec c run.reverse r0 with
      | some (w, rest) => some (w, mkTag pinkBody ++ w ++ spanClose, rest)
      | none => none
    else none
  | _ => none

/-! ### The generic global-replace scanner. -/

/-- One global `String.replace`: scan left to right; at each position fire the
pattern if it matches (the replacement is emitted and not rescanned), else copy
one character.  `prev` is the previous input character (for `\b`); fuel bounds
the recursion and is set to the input length. -/
def scanG (f : Option Char → List Char → Option (List Char × List Char × List Char)) :
    Nat → Option Char → List Char → List Char
  | 0, _, t => t
  | Nat.succ n, prev, t =>
    match t with
    | [] => []
    | c :: t' =>
      match f prev t with
      | some (m, o, r) =>
        o ++ scanG f n (match m.getLast? with | some x => some x | none => prev) r
      | none => c :: scanG f n (some c) t'

def runPass (f : Option Char → List Char → Option (List Char × List Char × List Char))
    (t : List Char) : List Char :=
  scanG f t.length none t

def passCom1 (t : List Char) : List Char := runPass tryCom1 t
def passCom2 (t : List Char) : List Char := runPass tryCom2 t
def passStr (t : List Char) : List Char := runPass tryStr t
def passKw (t : List Char) : List Char := runPass tryKw t
def passType (t : List Char) : List Char := runPass tryType t
def passNum (t : List Char) : List Char := runPass tryNum t
def passFun (t : List Char) : List Char := runPass tryFun t
def passClass (t : List Char) : List Char := runPass tryClass t
def passDec (t : List Char) : List Char := runPass tryDec t

/-- The source's `highlightCode`: escape, then the nine passes in order. -/
def highlightCode (code : List Char) : List Char :=
  passDec (passClass (passFun (passNum (passType (passKw
    (passStr (passCom2 (passCom1 (escapeHtml code)))))))))

/-- String-level wrapper. -/
def highlight (s : String) : String := String.mk (highlightCode s.data)

/-! ### Well-formedness of the emitted markup.

`wf inside acc d t` runs a small automaton over `t`: outside any tag
(`inside = false`) a `>` is illegal and a `<` enters a tag; inside a tag the
accumulated body must, at the closing `>`, be either the fixed closing tag
body (legal only at positive depth) or one of the eight opening-tag bodies.
Acceptance at the end requires being outside with depth `0`: every maximal
`<`…`>` region is one of the nine fixed tokens and spans are balanced. -/
def wf : Bool → List Char → Nat → List Char → Bool
  | false, _, d, [] => d == 0
  | false, _, d, c :: t =>
    if c = '<' then wf true [] d t
    else if c = '>' then false
    else wf false [] d t
  | true, _, _, [] => false
  | true, acc, d, c :: t =>
    if c = '>' then
      (if acc.reverse = closeBody then decide (0 < d) && wf false [] (d - 1) t
       else if acc.reverse ∈ openBodies then wf false [] (d + 1) t
       else false)
    else if c = '<' then false
    else wf true (c :: acc) d t

/-- Remove every `<`…`>` region, keeping the text between tags. -/
def stripF : Bool → List Char → List Char
  | false, [] => []
  | false, c :: t => if c = '<' then stripF true t else c :: stripF false t
  | true, [] => []
  | true, c :: t => if c = '>' then stripF false t else stripF true t

/-- No whitespace character immediately followed by `(` anywhere in the text. -/
def noWsParen : List Char → Bool
  | a :: b :: t => !(isWsChar a && b == '(') && noWsParen (b :: t)
  | _ => true

/-- Angle-freedom as a Boolean predicate. -/
def angleFree (t : List Char) : Bool := t.all fun c => c != '<' && c != '>'

/-- Does `seg` occur as a contiguous segment of the list? -/
def containsSeg (seg : List Char) : List Char → Bool
  | [] => decide (seg = [])
  | c :: t =>
    (match dropP seg (c :: t) with
     | some _ => true
     | none => false) || containsSeg seg t

end Highlight


namespace Highlight

/-! ### Basic lemmas -/

theorem dropP_eq (p t r : List Char) (h : dropP p t = some r) : t = p ++ r := by
  induction p generalizing t with
  | nil =>
    simp only [dropP, Option.some.injEq] at h
    simpa using h
  | cons c p ih =>
    cases t with
    | nil => simp [dropP] at h
    | cons x t' =>
      simp only [dropP] at h
      split at h
      · next heq => subst heq; simpa using ih t' h
      · exact absurd h (by simp)

theorem mem_takeWhile {p : Char → Bool} {t : List Char} {c : Char}
    (h : c ∈ t.takeWhile p) : p c = true := by
  induction t with
  | nil => simp [List.takeWhile] at h
  | cons x t ih =>
    simp only [List.takeWhile] at h
    split at h
    · rcases List.mem_cons.mp h with rfl | h'
      · assumption
      · exact ih h'
    · simp at h

theorem hasCBO_append_af (a z : List Char) (ha : ∀ c ∈ a, c ≠ '<' ∧ c ≠ '>') :
    hasCBO (a ++ '>' :: z) = true := by
  induction a with
  | nil => simp [hasCBO]
  | cons c a ih =>
    have hc := ha c (by simp)
    simp only [List.cons_append, hasCBO, if_neg hc.2, if_neg hc.1]
    exact ih fun x hx => ha x (by simp [hx])

theorem inside_split (w r pre suf : List Char) (h : w ++ r = pre ++ '>' :: suf)
    (hw : ∀ c ∈ w, c ≠ '<' ∧ c ≠ '>') (hp : ∀ c ∈ pre, c ≠ '<' ∧ c ≠ '>') :
    ∃ mid, r = mid ++ '>' :: suf ∧ ∀ c ∈ mid, c ≠ '<' ∧ c ≠ '>' := by
  induction w generalizing pre with
  | nil => exact ⟨pre, by simpa using h, hp⟩
  | cons c w ih =>
    cases pre with
    | nil =>
      simp only [List.cons_append, List.nil_append] at h
      have := (hw c (by simp)).2
      exact absurd (List.cons.injEq .. ▸ h).1 this
    | cons p pre' =>
      simp only [List.cons_append, List.cons.injEq] at h
      exact ih pre' h.2 (fun x hx => hw x (by simp [hx]))
        (fun x hx => hp x (by simp [hx]))

theorem hasCBO_of_inside (w r pre suf : List Char) (h : w ++ r = pre ++ '>' :: suf)
    (hw : ∀ c ∈ w, c ≠ '<' ∧ c ≠ '>') (hp : ∀ c ∈ pre, c ≠ '<' ∧ c ≠ '>') :
    hasCBO r = true := by
  obtain ⟨mid, hr, hm⟩ := inside_split w r pre suf h hw hp
  rw [hr]; exact hasCBO_append_af mid suf hm

theorem wf_true_decomp (acc : List Char) (d : Nat) (t : List Char)
    (h : wf true acc d t = true) :
    ∃ pre suf, t = pre ++ '>' :: suf ∧ ∀ c ∈ pre, c ≠ '<' ∧ c ≠ '>' := by
  induction t generalizing acc with
  | nil => simp [wf] at h
  | cons c t ih =>
    by_cases hgt : c = '>'
    · exact ⟨[], t, by simp [hgt], by simp⟩
    · by_cases hlt : c = '<'
      · rw [hlt] at h; simp [wf] at h
      · simp only [wf, if_neg hgt, if_neg hlt] at h
        obtain ⟨pre, suf, ht, hpre⟩ := ih (c :: acc) h
        exact ⟨c :: pre, suf, by simp [ht], by
          intro x hx
          rcases List.mem_cons.mp hx with rfl | hx'
          · exact ⟨hlt, hgt⟩
          · exact hpre x hx'⟩

/-! ### noWsParen lemmas -/

theorem nwp_tail (c : Char) (t : List Char) (h : noWsParen (c :: t) = true) :
    noWsParen t = true := by
  cases t with
  | nil => rfl
  | cons b t' => exact (Bool.and_eq_true_iff.mp h).2

theorem nwp_append_left (a b : List Char) (h : noWsParen (a ++ b) = true) :
    noWsParen a = true := by
  induction a with
  | nil => rfl
  | cons x a ih =>
    cases a with
    | nil => rfl
    | cons y a' =>
      simp only [List.cons_append, noWsParen, Bool.and_eq_true_iff] at h ⊢
      exact ⟨h.1, ih h.2⟩

theorem nwp_append_right (a b : List Char) (h : noWsParen (a ++ b) = true) :
    noWsParen b = true := by
  induction a with
  | nil => simpa using h
  | cons x a ih => exact ih (nwp_tail x (a ++ b) h)

theorem nwp_append (a b : List Char) (ha : noWsParen a = true)
    (hb : noWsParen b = true)
    (hj : ∀ x, a.getLast? = some x → isWsChar x = true → b.head? ≠ some '(') :
    noWsParen (a ++ b) = true := by
  induction a with
  | nil => simpa using hb
  | cons x a ih =>
    cases a with
    | nil =>
      cases b with
      | nil => rfl
      | cons y b' =>
        simp only [List.singleton_append, noWsParen, Bool.and_eq_true_iff]
        refine ⟨?_, hb⟩
        by_cases hws : isWsChar x
        · have := hj x (by simp) hws
          have hy : ¬ y = '(' := by
            intro hy; exact this (by simp [hy])
          simp [hy]
        · simp [hws]
    | cons z a' =>
      simp only [List.cons_append, noWsParen, Bool.and_eq_true_iff] at ha ⊢
      refine ⟨ha.1, ?_⟩
      exact ih ha.2 (fun w hw hws => hj w (by simp [List.getLast?_cons_cons]; exact hw ▸ rfl) hws)

theorem nwp_no_pair (x z : List Char) (a : Char)
    (h : noWsParen (x ++ a :: '(' :: z) = true) : isWsChar a = false := by
  have h2 := nwp_append_right x (a :: '(' :: z) h
  simp only [noWsParen, Bool.and_eq_true_iff] at h2
  have := h2.1
  by_cases hws : isWsChar a
  · simp [hws] at this
  · simpa using hws

end Highlight

namespace Highlight

/-! ### Traversal lemmas for `wf` and `stripF` -/

theorem wf_false_acc (acc acc' : List Char) (d : Nat) (t : List Char) :
    wf false acc d t = wf false acc' d t := by
  cases t <;> rfl

theorem wf_plain (m : List Char) (hm : ∀ c ∈ m, c ≠ '<' ∧ c ≠ '>') (d : Nat)
    (z : List Char) : wf false [] d (m ++ z) = wf false [] d z := by
  induction m with
  | nil => simp
  | cons c m ih =>
    have hc := hm c (by simp)
    simp only [List.cons_append, wf, if_neg hc.1, if_neg hc.2]
    exact ih fun x hx => hm x (by simp [hx])

theorem stripF_plain (m : List Char) (hm : ∀ c ∈ m, c ≠ '<' ∧ c ≠ '>') (z : List Char) :
    stripF false (m ++ z) = m ++ stripF false z := by
  induction m with
  | nil => simp
  | cons c m ih =>
    have hc := hm c (by simp)
    simp only [List.cons_append, stripF, if_neg hc.1, List.append_eq]
    rw [ih fun x hx => hm x (by simp [hx])]

theorem wf_inside_acc (b : List Char) (hb : ∀ c ∈ b, c ≠ '<' ∧ c ≠ '>') :
    ∀ (acc : List Char) (d : Nat) (z : List Char),
    wf true acc d (b ++ '>' :: z) =
      (if acc.reverse ++ b = closeBody then decide (0 < d) && wf false [] (d - 1) z
       else if acc.reverse ++ b ∈ openBodies then wf false [] (d + 1) z
       else false) := by
  induction b with
  | nil =>
    intro acc d z
    simp [wf]
  | cons c b ih =>
    intro acc d z
    have hc := hb c (by simp)
    simp only [List.cons_append, wf, if_neg hc.2, if_neg hc.1, List.append_eq]
    rw [ih (fun x hx => hb x (by simp [hx])) (c :: acc) d z]
    simp [List.reverse_cons, List.append_assoc]

theorem stripF_inside (b : List Char) (hb : ∀ c ∈ b, c ≠ '>') (z : List Char) :
    stripF true (b ++ '>' :: z) = stripF false z := by
  induction b with
  | nil => simp [stripF]
  | cons c b ih =>
    have hc := hb c (by simp)
    simp only [List.cons_append, stripF, if_neg hc]
    exact ih fun x hx => hb x (by simp [hx])

theorem openBodies_facts : ∀ b ∈ openBodies,
    (∀ c ∈ b, c ≠ '<' ∧ c ≠ '>') ∧ b ≠ closeBody := by decide

theorem closeBody_facts : ∀ c ∈ closeBody, c ≠ '<' ∧ c ≠ '>' := by decide

theorem wf_openTag (b : List Char) (hb : b ∈ openBodies) (acc : List Char) (d : Nat)
    (z : List Char) : wf false acc d (mkTag b ++ z) = wf false [] (d + 1) z := by
  obtain ⟨haf, hne⟩ := openBodies_facts b hb
  have : mkTag b ++ z = '<' :: (b ++ '>' :: z) := by simp [mkTag]
  rw [this]
  show wf false acc d _ = _
  rw [show wf false acc d ('<' :: (b ++ '>' :: z)) = wf true [] d (b ++ '>' :: z) from by
    simp [wf]]
  rw [wf_inside_acc b haf [] d z]
  simp [hne, hb]

theorem wf_closeTag (acc : List Char) (d : Nat) (z : List Char) :
    wf false acc d (spanClose ++ z) = (decide (0 < d) && wf false [] (d - 1) z) := by
  have : spanClose ++ z = '<' :: (closeBody ++ '>' :: z) := by simp [spanClose, mkTag]
  rw [this]
  rw [show wf false acc d ('<' :: (closeBody ++ '>' :: z)) =
      wf true [] d (closeBody ++ '>' :: z) from by simp [wf]]
  rw [wf_inside_acc closeBody closeBody_facts [] d z]
  simp

theorem stripF_openTag (b : List Char) (hb : ∀ c ∈ b, c ≠ '<' ∧ c ≠ '>')
    (z : List Char) : stripF false (mkTag b ++ z) = stripF false z := by
  have : mkTag b ++ z = '<' :: (b ++ '>' :: z) := by simp [mkTag]
  rw [this]
  rw [show stripF false ('<' :: (b ++ '>' :: z)) = stripF true (b ++ '>' :: z) from by
    simp [stripF]]
  exact stripF_inside b (fun c hc => (hb c hc).2) z

theorem stripF_closeTag (z : List Char) : stripF false (spanClose ++ z) = stripF false z :=
  stripF_openTag closeBody closeBody_facts z

end Highlight

namespace Highlight

theorem nwp_cons_of (c : Char) (R : List Char) (hR : noWsParen R = true)
    (hhead : ∀ y, R.head? = some y → (isWsChar c && y == '(') = false) :
    noWsParen (c :: R) = true := by
  cases R with
  | nil => rfl
  | cons y R' =>
    simp only [noWsParen, Bool.and_eq_true_iff]
    refine ⟨?_, hR⟩
    have h := hhead y rfl
    simp only [Bool.and_eq_false_iff] at h
    rcases h with h | h
    · simp [h]
    · simp [beq_eq_false_iff_ne.mp h]

/-- The output of one scanner step starts with the input's head, with `<`, or is empty. -/
theorem scanG_head
    (f : Option Char → List Char → Option (List Char × List Char × List Char))
    (Hhead : ∀ prev t m o r, f prev t = some (m, o, r) → ∃ o2, o = '<' :: o2)
    (n : Nat) (prev : Option Char) (t : List Char) :
    scanG f n prev t = [] ∨ (scanG f n prev t).head? = t.head? ∨
      (scanG f n prev t).head? = some '<' := by
  cases n with
  | zero => right; left; rfl
  | succ n =>
    cases t with
    | nil => left; rfl
    | cons c t' =>
      cases hf : f prev (c :: t') with
      | none => right; left; simp [scanG, hf]
      | some val =>
        obtain ⟨m, o, r⟩ := val
        obtain ⟨o2, ho⟩ := Hhead prev (c :: t') m o r hf
        right; right
        simp [scanG, hf, ho]

end Highlight

namespace Highlight

/-- Master preservation theorem for the guarded passes.  If a pass's match
function consumes a nonempty angle-free prefix, only fires when its lookahead
guard holds, and emits `openTag ++ mid ++ closeTag ++ extra` markup, then a
whole scan preserves well-formedness of the markup; and if additionally no
whitespace precedes a `(` and the replacement strips back to the consumed
text, the scan preserves the tag-stripped content and the `noWsParen`
property. -/
theorem scan_master
    (f : Option Char → List Char → Option (List Char × List Char × List Char))
    (Hsome : ∀ prev t m o r, f prev t = some (m, o, r) →
      m ≠ [] ∧ t = m ++ r ∧ (∀ c ∈ m, c ≠ '<' ∧ c ≠ '>'))
    (Hguard : ∀ prev t m o r, f prev t = some (m, o, r) → hasCBO r = false)
    (Hshape : ∀ prev t m o r, f prev t = some (m, o, r) →
      ∃ b mid extra, b ∈ openBodies ∧ o = mkTag b ++ mid ++ spanClose ++ extra ∧
        (∀ c ∈ mid, c ≠ '<' ∧ c ≠ '>') ∧ (∀ c ∈ extra, c ≠ '<' ∧ c ≠ '>'))
    (Hnwp : ∀ prev t m o r, f prev t = some (m, o, r) → noWsParen t = true →
      stripF false o = m ∧ noWsParen o = true ∧
      ∀ x, o.getLast? = some x → isWsChar x = false) :
    ∀ n t prev inside acc d, t.length ≤ n → wf inside acc d t = true →
      wf inside acc d (scanG f n prev t) = true ∧
      (noWsParen t = true →
        stripF inside (scanG f n prev t) = stripF inside t ∧
        noWsParen (scanG f n prev t) = true) := by
  intro n
  induction n with
  | zero =>
    intro t prev inside acc d hlen hwf
    have ht : t = [] := List.eq_nil_of_length_eq_zero (Nat.le_zero.mp hlen)
    subst ht
    exact ⟨hwf, fun _ => ⟨rfl, rfl⟩⟩
  | succ n ih =>
    intro t prev inside acc d hlen hwf
    cases t with
    | nil =>
      refine ⟨by simpa [scanG] using hwf, fun _ => ⟨rfl, by simp [scanG]; rfl⟩⟩
    | cons c t' =>
      have hlen' : t'.length ≤ n := by
        simpa [Nat.succ_le_succ_iff] using hlen
      cases hf : f prev (c :: t') with
      | some val =>
        obtain ⟨m, o, r⟩ := val
        obtain ⟨hm0, heq, hmaf⟩ := Hsome prev (c :: t') m o r hf
        -- the match cannot start inside a tag
        have hins : inside = false := by
          cases inside with
          | false => rfl
          | true =>
            exfalso
            obtain ⟨pre, suf, ht, hpre⟩ := wf_true_decomp acc d (c :: t') hwf
            have hcb : hasCBO r = true :=
              hasCBO_of_inside m r pre suf (by rw [← heq, ht]) hmaf hpre
            rw [Hguard prev (c :: t') m o r hf] at hcb
            exact Bool.false_ne_true hcb
        subst hins
        obtain ⟨b, mid, extra, hb, ho, hmidaf, hextaf⟩ := Hshape prev (c :: t') m o r hf
        have hbaf := (openBodies_facts b hb).1
        have hrlen : r.length ≤ n := by
          have h1 : (c :: t').length = m.length + r.length := by
            rw [heq, List.length_append]
          have h2 : 1 ≤ m.length := List.length_pos.mpr hm0
          simp only [List.length_cons] at h1
          omega
        have hwfr : wf false [] d r = true := by
          rw [wf_false_acc acc [], heq, wf_plain m hmaf] at hwf
          exact hwf
        have ihr := ih r (match m.getLast? with | some x => some x | none => prev)
          false [] d hrlen hwfr
        have hout : scanG f (n + 1) prev (c :: t') =
            o ++ scanG f n (match m.getLast? with | some x => some x | none => prev) r := by
          simp [scanG, hf]
        rw [hout]
        set R := scanG f n (match m.getLast? with | some x => some x | none => prev) r
          with hR
        have hassoc : o ++ R = mkTag b ++ (mid ++ (spanClose ++ (extra ++ R))) := by
          rw [ho]; simp [List.append_assoc]
        constructor
        · -- well-formedness
          rw [hassoc, wf_openTag b hb, wf_plain mid hmidaf, wf_closeTag,
            wf_plain extra hextaf]
          simpa using ihr.1
        · -- strip and noWsParen, under noWsParen input
          intro hnwpt
          obtain ⟨hso, hnwpo, hlasto⟩ := Hnwp prev (c :: t') m o r hf hnwpt
          have hnwpr : noWsParen r = true := by
            rw [heq] at hnwpt; exact nwp_append_right m r hnwpt
          obtain ⟨ihs, ihn⟩ := ihr.2 hnwpr
          -- stripF false o = mid ++ extra, hence mid ++ extra = m
          have hsostruct : stripF false o = mid ++ extra := by
            rw [ho]
            rw [show mkTag b ++ mid ++ spanClose ++ extra =
              mkTag b ++ (mid ++ (spanClose ++ extra)) from by simp [List.append_assoc]]
            rw [stripF_openTag b hbaf, stripF_plain mid hmidaf, stripF_closeTag]
            rw [show stripF false extra = extra from by
              simpa [stripF] using stripF_plain extra hextaf []]
          have hme : mid ++ extra = m := by rw [← hsostruct, hso]
          constructor
          · rw [hassoc, stripF_openTag b hbaf, stripF_plain mid hmidaf,
              stripF_closeTag, stripF_plain extra hextaf, ihs, heq,
              stripF_plain m hmaf, ← hme]
            simp [List.append_assoc]
          · rw [ho] at hnwpo hlasto ⊢
            refine nwp_append _ R hnwpo ihn ?_
            intro x hx hws
            rw [hlasto x hx] at hws
            exact absurd hws (by simp)
      | none =>
        have hout : scanG f (n + 1) prev (c :: t') = c :: scanG f n (some c) t' := by
          simp [scanG, hf]
        rw [hout]
        set R := scanG f n (some c) t' with hRdef
        -- pair-safety of the emitted head character
        have hpair : ∀ hnwpt : noWsParen (c :: t') = true,
            ∀ y, R.head? = some y → (isWsChar c && y == '(') = false := by
          intro hnwpt y hy
          rw [hRdef] at hy
          have Hhead : ∀ prev t m o r, f prev t = some (m, o, r) →
              ∃ o2, o = '<' :: o2 := by
            intro prev1 t1 m1 o1 r1 hf1
            obtain ⟨b1, mid1, extra1, _, ho1, _, _⟩ := Hshape prev1 t1 m1 o1 r1 hf1
            exact ⟨(b1 ++ ['>']) ++ mid1 ++ spanClose ++ extra1,
              by rw [ho1]; simp [mkTag, List.append_assoc]⟩
          rcases scanG_head f Hhead n (some c) t' with h0 | h0 | h0
          · rw [h0] at hy; simp at hy
          · rw [h0] at hy
            cases t' with
            | nil => simp at hy
            | cons z t'' =>
              simp only [List.head?] at hy
              have hz : z = y := by simpa using hy
              subst hz
              simp only [noWsParen, Bool.and_eq_true_iff] at hnwpt
              have h1 := hnwpt.1
              revert h1
              cases isWsChar c && z == '(' <;> simp
          · rw [h0] at hy
            have : y = '<' := by simpa using hy.symm
            subst this
            simp
        cases inside with
        | false =>
          by_cases hlt : c = '<'
          · subst hlt
            have hwf' : wf true [] d t' = true := by simpa [wf] using hwf
            have ihr := ih t' (some '<') true [] d hlen' hwf'
            constructor
            · simpa [wf] using ihr.1
            · intro hnwpt
              have hnwpt' : noWsParen t' = true := nwp_tail _ _ hnwpt
              obtain ⟨ihs, ihn⟩ := ihr.2 hnwpt'
              refine ⟨by simpa [stripF] using ihs, ?_⟩
              exact nwp_cons_of _ R ihn (hpair hnwpt)
          · by_cases hgt : c = '>'
            · subst hgt; simp [wf, hlt] at hwf
            · have hwf' : wf false [] d t' = true := by
                have := hwf
                simp only [wf, if_neg hlt, if_neg hgt] at this
                exact this
              have ihr := ih t' (some c) false [] d hlen' hwf'
              constructor
              · simp only [wf, if_neg hlt, if_neg hgt]
                exact ihr.1
              · intro hnwpt
                have hnwpt' : noWsParen t' = true := nwp_tail _ _ hnwpt
                obtain ⟨ihs, ihn⟩ := ihr.2 hnwpt'
                refine ⟨?_, nwp_cons_of _ R ihn (hpair hnwpt)⟩
                simp only [stripF, if_neg hlt]
                rw [ihs]
        | true =>
          by_cases hgt : c = '>'
          · subst hgt
            by_cases hcl : acc.reverse = closeBody
            · have hwf' : decide (0 < d) && wf false [] (d - 1) t' = true := by
                simpa [wf, hcl] using hwf
              obtain ⟨hd, hwf''⟩ := Bool.and_eq_true_iff.mp hwf'
              have hwf3 : wf false [] (d - 1) t' = true := by simpa using hwf''
              have ihr := ih t' (some '>') false [] (d - 1) hlen' hwf3
              constructor
              · simp only [wf, if_pos rfl, if_pos hcl]
                simp only [hd, Bool.true_and]
                exact ihr.1
              · intro hnwpt
                have hnwpt' : noWsParen t' = true := nwp_tail _ _ hnwpt
                obtain ⟨ihs, ihn⟩ := ihr.2 hnwpt'
                refine ⟨by simpa [stripF] using ihs, ?_⟩
                exact nwp_cons_of _ R ihn (hpair hnwpt)
            · by_cases hop : acc.reverse ∈ openBodies
              · have hwf'' : wf false [] (d + 1) t' = true := by
                  simpa [wf, hcl, hop] using hwf
                have ihr := ih t' (some '>') false [] (d + 1) hlen' hwf''
                constructor
                · simp only [wf, if_pos rfl, if_neg hcl, if_pos hop]
                  exact ihr.1
                · intro hnwpt
                  have hnwpt' : noWsParen t' = true := nwp_tail _ _ hnwpt
                  obtain ⟨ihs, ihn⟩ := ihr.2 hnwpt'
                  refine ⟨by simpa [stripF] using ihs, ?_⟩
                  exact nwp_cons_of _ R ihn (hpair hnwpt)
              · exfalso
                have := hwf
                simp [wf, hcl, hop] at this
          · by_cases hlt : c = '<'
            · subst hlt; simp [wf] at hwf
            · have hwf' : wf true (c :: acc) d t' = true := by
                have := hwf
                simp only [wf, if_neg hgt, if_neg hlt] at this
                exact this
              have ihr := ih t' (some c) true (c :: acc) d hlen' hwf'
              constructor
              · simp only [wf, if_neg hgt, if_neg hlt]
                exact ihr.1
              · intro hnwpt
                have hnwpt' : noWsParen t' = true := nwp_tail _ _ hnwpt
                obtain ⟨ihs, ihn⟩ := ihr.2 hnwpt'
                refine ⟨?_, nwp_cons_of _ R ihn (hpair hnwpt)⟩
                simp only [stripF, if_neg hgt]
                rw [ihs]

end Highlight

namespace Highlight

/-! ### Character-class facts and generic helpers for the pass instantiations -/

theorem identChar_not_angle (c : Char) (h : isIdentChar c = true) : c ≠ '<' ∧ c ≠ '>' := by
  constructor <;> intro hc <;> subst hc <;> exact absurd h (by decide)

theorem identChar_not_paren (c : Char) (h : isIdentChar c = true) : c ≠ '(' := by
  intro hc; subst hc; exact absurd h (by decide)

theorem digit_not_angle (c : Char) (h : c.isDigit = true) : c ≠ '<' ∧ c ≠ '>' := by
  constructor <;> intro hc <;> subst hc <;> exact absurd h (by decide)

theorem digit_not_paren (c : Char) (h : c.isDigit = true) : c ≠ '(' := by
  intro hc; subst hc; exact absurd h (by decide)

theorem ws_not_angle (c : Char) (h : isWsChar c = true) : c ≠ '<' ∧ c ≠ '>' := by
  constructor <;> intro hc <;> subst hc <;> exact absurd h (by decide)

theorem upper_identChar (c : Char) (h : c.isUpper = true) : isIdentChar c = true := by
  have : c.isAlpha = true := by
    simp only [Char.isAlpha, Bool.or_eq_true]
    exact Or.inl h
  simp [isIdentChar, Char.isAlphanum, this]

theorem identStart_identChar (c : Char) (h : isIdentStart c = true) :
    isIdentChar c = true := by
  simp only [isIdentStart, Bool.or_eq_true] at h
  rcases h with (h | h) | h
  · simp [isIdentChar, Char.isAlphanum, h]
  · simp [isIdentChar, h]
  · simp [isIdentChar, h]

theorem getLast?_mem_own (l : List Char) (x : Char) (h : l.getLast? = some x) :
    x ∈ l := by
  induction l with
  | nil => simp at h
  | cons c l ih =>
    cases l with
    | nil => simp_all
    | cons y l' =>
      rw [List.getLast?_cons_cons] at h
      exact List.mem_cons_of_mem c (ih h)

theorem nwp_of_no_paren (l : List Char) (h : ∀ c ∈ l, c ≠ '(') :
    noWsParen l = true := by
  induction l with
  | nil => rfl
  | cons a l ih =>
    cases l with
    | nil => rfl
    | cons b l' =>
      simp only [noWsParen, Bool.and_eq_true_iff]
      refine ⟨?_, ih fun c hc => h c (by simp [hc])⟩
      have hb : b ≠ '(' := h b (by simp)
      simp [hb]

theorem spanClose_nwp : noWsParen spanClose = true := by decide

theorem spanClose_ne_nil : spanClose ≠ [] := by decide

theorem spanClose_getLast : spanClose.getLast? = some '>' := by decide

/-- `noWsParen` holds for `tag ++ w ++ spanClose` when `tag` is a well-behaved
opening tag and `w` has no whitespace-before-`(` pair internally: the closing
tag starts with `<`, never `(`, so the junction after `w` is always safe. -/
theorem nwp_sandwich (tag w : List Char) (htag : noWsParen tag = true)
    (htlast : ∀ x, tag.getLast? = some x → isWsChar x = false)
    (hw : noWsParen w = true) :
    noWsParen (tag ++ w ++ spanClose) = true := by
  rw [List.append_assoc]
  refine nwp_append tag (w ++ spanClose) htag ?_ ?_
  · refine nwp_append w spanClose hw spanClose_nwp ?_
    intro x hx hws
    exact by decide
  · intro x hx hws
    rw [htlast x hx] at hws
    exact absurd hws (by simp)

/-- The strip content of `tag ++ w ++ spanClose` markup. -/
theorem stripF_sandwich (b w : List Char) (hb : ∀ c ∈ b, c ≠ '<' ∧ c ≠ '>')
    (hw : ∀ c ∈ w, c ≠ '<' ∧ c ≠ '>') :
    stripF false (mkTag b ++ w ++ spanClose) = w := by
  rw [List.append_assoc, stripF_openTag b hb, stripF_plain w hw]
  have : stripF false spanClose = [] := by decide
  rw [this, List.append_nil]

theorem mkTag_nwp : ∀ b ∈ openBodies, noWsParen (mkTag b) = true := by decide

theorem mkTag_getLast (b : List Char) : (mkTag b).getLast? = some '>' := by
  rw [show mkTag b = ('<' :: b) ++ ['>'] from by simp [mkTag]]
  rw [List.getLast?_append_of_ne_nil _ (by simp)]
  rfl

theorem sandwich_getLast (tag w : List Char) :
    (tag ++ w ++ spanClose).getLast? = some '>' := by
  rw [List.getLast?_append_of_ne_nil _ spanClose_ne_nil]
  exact spanClose_getLast

end Highlight

namespace Highlight

/-! ### Instantiating the master theorem: keyword and type passes -/

theorem matchWordList_inv (ws : List (List Char)) (t w r : List Char)
    (h : matchWordList ws t = some (w, r)) : w ∈ ws ∧ dropP w t = some r := by
  induction ws with
  | nil => exact Option.noConfusion h
  | cons v ws ih =>
    simp only [matchWordList] at h
    cases hd : dropP v t with
    | none =>
      rw [hd] at h
      have h2 : matchWordList ws t = some (w, r) := h
      obtain ⟨h1, h3⟩ := ih h2
      exact ⟨by simp [h1], h3⟩
    | some r' =>
      rw [hd] at h
      have h2 : (if endBnd v r' = true then some (v, r') else matchWordList ws t) =
          some (w, r) := h
      by_cases hb : endBnd v r' = true
      · rw [if_pos hb] at h2
        simp only [Option.some.injEq, Prod.mk.injEq] at h2
        obtain ⟨h1, h3⟩ := h2
        subst h1; subst h3
        exact ⟨by simp, hd⟩
      · rw [if_neg hb] at h2
        obtain ⟨h1, h3⟩ := ih h2
        exact ⟨by simp [h1], h3⟩

theorem tryWords_inv (tag : List Char) (words : List (List Char)) (prev : Option Char)
    (t m o r : List Char) (h : tryWords tag words prev t = some (m, o, r)) :
    m ∈ words ∧ t = m ++ r ∧ hasCBO r = false ∧ o = tag ++ m ++ spanClose := by
  cases t with
  | nil => exact Option.noConfusion h
  | cons c t' =>
    have h' : (if bnd prev c = true then
          match matchWordList words (c :: t') with
          | some (w, r1) => if hasCBO r1 = true then none
              else some (w, tag ++ w ++ spanClose, r1)
          | none => none
        else none) = some (m, o, r) := h
    by_cases hbnd : bnd prev c = true
    · rw [if_pos hbnd] at h'
      cases hm : matchWordList words (c :: t') with
      | none => rw [hm] at h'; exact Option.noConfusion h'
      | some val =>
        obtain ⟨w, r1⟩ := val
        rw [hm] at h'
        have h'' : (if hasCBO r1 = true then none
            else some (w, tag ++ w ++ spanClose, r1)) = some (m, o, r) := h'
        by_cases hcb : hasCBO r1 = true
        · rw [if_pos hcb] at h''; exact Option.noConfusion h''
        · rw [if_neg hcb] at h''
          simp only [Option.some.injEq, Prod.mk.injEq] at h''
          obtain ⟨h1, h2, h3⟩ := h''
          subst h1; subst h2; subst h3
          obtain ⟨hmem, hdp⟩ := matchWordList_inv words (c :: t') _ _ hm
          exact ⟨hmem, dropP_eq _ (c :: t') _ hdp, by simpa using hcb, rfl⟩
    · rw [if_neg hbnd] at h'; exact Option.noConfusion h'

/-- The master hypotheses hold for any word-list pass whose words are nonempty
identifiers, e.g. the keyword and type passes. -/
theorem wordPass_preserves (b : List Char) (hb : b ∈ openBodies)
    (words : List (List Char))
    (hwords : ∀ w ∈ words, w ≠ [] ∧ ∀ c ∈ w, isIdentChar c = true) :
    ∀ t acc d, wf false acc d t = true →
      wf false acc d (runPass (tryWords (mkTag b) words) t) = true ∧
      (noWsParen t = true →
        stripF false (runPass (tryWords (mkTag b) words) t) = stripF false t ∧
        noWsParen (runPass (tryWords (mkTag b) words) t) = true) := by
  intro t acc d hwf
  refine scan_master (tryWords (mkTag b) words) ?_ ?_ ?_ ?_ t.length t none false acc d
    le_rfl hwf
  · intro prev t m o r hf
    obtain ⟨hmem, heq, _, _⟩ := tryWords_inv _ _ _ _ _ _ _ hf
    obtain ⟨hne, hchars⟩ := hwords m hmem
    exact ⟨hne, heq, fun c hc => identChar_not_angle c (hchars c hc)⟩
  · intro prev t m o r hf
    exact (tryWords_inv _ _ _ _ _ _ _ hf).2.2.1
  · intro prev t m o r hf
    obtain ⟨hmem, _, _, ho⟩ := tryWords_inv _ _ _ _ _ _ _ hf
    obtain ⟨_, hchars⟩ := hwords m hmem
    refine ⟨b, m, [], hb, by rw [ho]; simp, fun c hc => identChar_not_angle c (hchars c hc),
      by simp⟩
  · intro prev t m o r hf _
    obtain ⟨hmem, _, _, ho⟩ := tryWords_inv _ _ _ _ _ _ _ hf
    obtain ⟨_, hchars⟩ := hwords m hmem
    have haf : ∀ c ∈ m, c ≠ '<' ∧ c ≠ '>' := fun c hc => identChar_not_angle c (hchars c hc)
    refine ⟨by rw [ho]; exact stripF_sandwich b m (openBodies_facts b hb).1 haf, ?_, ?_⟩
    · rw [ho]
      exact nwp_sandwich (mkTag b) m (mkTag_nwp b hb)
        (fun x hx => by rw [mkTag_getLast b] at hx; simp at hx; subst hx; decide)
        (nwp_of_no_paren m (fun c hc => identChar_not_paren c (hchars c hc)))
    · intro x hx
      rw [ho, sandwich_getLast] at hx
      simp at hx; subst hx; rfl

theorem kwWords_facts : ∀ w ∈ kwWords, w ≠ [] ∧ ∀ c ∈ w, isIdentChar c = true := by
  decide

theorem tyWords_facts : ∀ w ∈ tyWords, w ≠ [] ∧ ∀ c ∈ w, isIdentChar c = true := by
  decide

theorem purpleBody_mem : purpleBody ∈ openBodies := by decide

theorem cyanBody_mem : cyanBody ∈ openBodies := by decide

theorem passKw_preserves : ∀ t acc d, wf false acc d t = true →
    wf false acc d (passKw t) = true ∧
    (noWsParen t = true →
      stripF false (passKw t) = stripF false t ∧ noWsParen (passKw t) = true) :=
  wordPass_preserves purpleBody purpleBody_mem kwWords kwWords_facts

theorem passType_preserves : ∀ t acc d, wf false acc d t = true →
    wf false acc d (passType t) = true ∧
    (noWsParen t = true →
      stripF false (passType t) = stripF false t ∧ noWsParen (passType t) = true) :=
  wordPass_preserves cyanBody cyanBody_mem tyWords tyWords_facts

end Highlight

namespace Highlight

/-! ### The number pass -/

theorem tryNum_inv (prev : Option Char) (t m o r : List Char)
    (h : tryNum prev t = some (m, o, r)) :
    m ≠ [] ∧ t = m ++ r ∧ (∀ c ∈ m, c.isDigit = true) ∧ hasCBO r = false ∧
    o = mkTag orangeBody ++ m ++ spanClose := by
  cases t with
  | nil => exact Option.noConfusion h
  | cons c t' =>
    have h' : (if (bnd prev c && c.isDigit) = true then
          (if (endBnd (List.takeWhile Char.isDigit (c :: t'))
                (List.dropWhile Char.isDigit (c :: t')) &&
              !hasCBO (List.dropWhile Char.isDigit (c :: t'))) = true then
            some (List.takeWhile Char.isDigit (c :: t'),
              mkTag orangeBody ++ List.takeWhile Char.isDigit (c :: t') ++ spanClose,
              List.dropWhile Char.isDigit (c :: t'))
          else none)
        else none) = some (m, o, r) := h
    by_cases hc : (bnd prev c && c.isDigit) = true
    · rw [if_pos hc] at h'
      by_cases hcond : (endBnd (List.takeWhile Char.isDigit (c :: t'))
            (List.dropWhile Char.isDigit (c :: t')) &&
          !hasCBO (List.dropWhile Char.isDigit (c :: t'))) = true
      · rw [if_pos hcond] at h'
        simp only [Option.some.injEq, Prod.mk.injEq] at h'
        obtain ⟨h1, h2, h3⟩ := h'
        subst h1; subst h2; subst h3
        obtain ⟨hbnd, hdig⟩ := Bool.and_eq_true_iff.mp hc
        obtain ⟨hend, hcb⟩ := Bool.and_eq_true_iff.mp hcond
        refine ⟨?_, ?_, ?_, ?_, rfl⟩
        · have : List.takeWhile Char.isDigit (c :: t') = c :: t'.takeWhile Char.isDigit := by
            simp [List.takeWhile, hdig]
          simp [this]
        · exact (List.takeWhile_append_dropWhile Char.isDigit (c :: t')).symm
        · intro x hx; exact mem_takeWhile hx
        · simpa using hcb
      · rw [if_neg hcond] at h'; exact Option.noConfusion h'
    · rw [if_neg hc] at h'; exact Option.noConfusion h'

theorem orangeBody_mem : orangeBody ∈ openBodies := by decide

theorem passNum_preserves : ∀ t acc d, wf false acc d t = true →
    wf false acc d (passNum t) = true ∧
    (noWsParen t = true →
      stripF false (passNum t) = stripF false t ∧ noWsParen (passNum t) = true) := by
  intro t acc d hwf
  refine scan_master tryNum ?_ ?_ ?_ ?_ t.length t none false acc d le_rfl hwf
  · intro prev t m o r hf
    obtain ⟨hne, heq, hdig, _, _⟩ := tryNum_inv prev t m o r hf
    exact ⟨hne, heq, fun c hc => digit_not_angle c (hdig c hc)⟩
  · intro prev t m o r hf
    exact (tryNum_inv prev t m o r hf).2.2.2.1
  · intro prev t m o r hf
    obtain ⟨_, _, hdig, _, ho⟩ := tryNum_inv prev t m o r hf
    exact ⟨orangeBody, m, [], orangeBody_mem, by rw [ho]; simp,
      fun c hc => digit_not_angle c (hdig c hc), by simp⟩
  · intro prev t m o r hf _
    obtain ⟨_, _, hdig, _, ho⟩ := tryNum_inv prev t m o r hf
    have haf : ∀ c ∈ m, c ≠ '<' ∧ c ≠ '>' := fun c hc => digit_not_angle c (hdig c hc)
    refine ⟨by rw [ho]; exact stripF_sandwich _ m (openBodies_facts _ orangeBody_mem).1 haf,
      ?_, ?_⟩
    · rw [ho]
      exact nwp_sandwich _ m (mkTag_nwp _ orangeBody_mem)
        (fun x hx => by rw [mkTag_getLast] at hx; simp at hx; subst hx; decide)
        (nwp_of_no_paren m (fun c hc => digit_not_paren c (hdig c hc)))
    · intro x hx
      rw [ho, sandwich_getLast] at hx
      simp at hx; subst hx; rfl

end Highlight

namespace Highlight

/-! ### The function-call pass -/

theorem tryFun_inv (prev : Option Char) (t m o r : List Char)
    (h : tryFun prev t = some (m, o, r)) :
    ∃ ident ws, ident = t.takeWhile isIdentChar ∧ ident ≠ [] ∧
      (∀ c ∈ ident, isIdentChar c = true) ∧
      ws = (t.dropWhile isIdentChar).takeWhile isWsChar ∧
      (∀ c ∈ ws, isWsChar c = true) ∧
      m = ident ++ ws ++ ['('] ∧ t = m ++ r ∧ hasCBO r = false ∧
      o = mkTag yellowBody ++ ident ++ spanClose ++ ['('] := by
  cases t with
  | nil => exact Option.noConfusion h
  | cons c t' =>
    have h' : (if (bnd prev c && isIdentStart c) = true then
          (match (List.dropWhile isIdentChar (c :: t')).dropWhile isWsChar with
          | '(' :: r3 =>
            if hasCBO r3 = true then none
            else some (List.takeWhile isIdentChar (c :: t') ++
                (List.dropWhile isIdentChar (c :: t')).takeWhile isWsChar ++ ['('],
              mkTag yellowBody ++ List.takeWhile isIdentChar (c :: t') ++
                spanClose ++ ['('], r3)
          | _ => none)
        else none) = some (m, o, r) := h
    by_cases hc : (bnd prev c && isIdentStart c) = true
    · rw [if_pos hc] at h'
      split at h'
      · next r3 heq =>
        by_cases hcb : hasCBO r3 = true
        · rw [if_pos hcb] at h'; exact Option.noConfusion h'
        · rw [if_neg hcb] at h'
          simp only [Option.some.injEq, Prod.mk.injEq] at h'
          obtain ⟨h1, h2, h3⟩ := h'
          refine ⟨List.takeWhile isIdentChar (c :: t'),
            (List.dropWhile isIdentChar (c :: t')).takeWhile isWsChar,
            rfl, ?_, ?_, rfl, ?_, h1.symm, ?_, by rw [← h3]; simpa using hcb, h2.symm⟩
          · have hstart : isIdentChar c = true :=
              identStart_identChar c (Bool.and_eq_true_iff.mp hc).2
            simp [List.takeWhile, hstart]
          · intro x hx; exact mem_takeWhile hx
          · intro x hx; exact mem_takeWhile hx
          · rw [← h1, ← h3]
            rw [List.append_assoc, List.append_assoc, List.singleton_append, ← heq]
            rw [List.takeWhile_append_dropWhile, List.takeWhile_append_dropWhile]
      · exact Option.noConfusion h'
    · rw [if_neg hc] at h'; exact Option.noConfusion h'

theorem yellowBody_mem : yellowBody ∈ openBodies := by decide

theorem passFun_preserves : ∀ t acc d, wf false acc d t = true →
    wf false acc d (passFun t) = true ∧
    (noWsParen t = true →
      stripF false (passFun t) = stripF false t ∧ noWsParen (passFun t) = true) := by
  intro t acc d hwf
  refine scan_master tryFun ?_ ?_ ?_ ?_ t.length t none false acc d le_rfl hwf
  · intro prev t m o r hf
    obtain ⟨ident, ws, _, _, hid, _, hws, hm, heq, _, _⟩ := tryFun_inv prev t m o r hf
    refine ⟨by rw [hm]; simp, heq, ?_⟩
    intro x hx
    rw [hm] at hx
    simp only [List.mem_append] at hx
    rcases hx with (hx | hx) | hx
    · exact identChar_not_angle x (hid x hx)
    · exact ws_not_angle x (hws x hx)
    · simp only [List.mem_singleton] at hx; subst hx; exact ⟨by decide, by decide⟩
  · intro prev t m o r hf
    obtain ⟨_, _, _, _, _, _, _, _, _, hcb, _⟩ := tryFun_inv prev t m o r hf
    exact hcb
  · intro prev t m o r hf
    obtain ⟨ident, ws, _, _, hid, _, _, _, _, _, ho⟩ := tryFun_inv prev t m o r hf
    refine ⟨yellowBody, ident, ['('], yellowBody_mem, by rw [ho], ?_, by decide⟩
    exact fun c hc => identChar_not_angle c (hid c hc)
  · intro prev t m o r hf hnwp
    obtain ⟨ident, ws, _, _, hid, _, hws, hm, heq, _, ho⟩ := tryFun_inv prev t m o r hf
    -- under noWsParen, the matched whitespace must be empty
    have hwsnil : ws = [] := by
      rcases List.eq_nil_or_concat' ws with hnil | ⟨ws', a, hconcat⟩
      · exact hnil
      · exfalso
        have ha : isWsChar a = true := hws a (by simp [hconcat])
        have ht : t = (ident ++ ws') ++ a :: '(' :: r := by
          rw [heq, hm, hconcat]
          simp [List.append_assoc]
        rw [ht] at hnwp
        rw [nwp_no_pair (ident ++ ws') r a hnwp] at ha
        exact Bool.false_ne_true ha
    have hmid : m = ident ++ ['('] := by rw [hm, hwsnil]; simp
    have hidaf : ∀ c ∈ ident, c ≠ '<' ∧ c ≠ '>' :=
      fun c hc => identChar_not_angle c (hid c hc)
    refine ⟨?_, ?_, ?_⟩
    · rw [ho, hmid]
      rw [show mkTag yellowBody ++ ident ++ spanClose ++ ['('] =
          mkTag yellowBody ++ (ident ++ (spanClose ++ ['('])) from by
        simp [List.append_assoc]]
      rw [stripF_openTag _ (openBodies_facts _ yellowBody_mem).1,
        stripF_plain ident hidaf, stripF_closeTag]
      rfl
    · rw [ho]
      refine nwp_append _ ['('] ?_ (by rfl) ?_
      · exact nwp_sandwich _ ident (mkTag_nwp _ yellowBody_mem)
          (fun x hx => by rw [mkTag_getLast] at hx; simp at hx; subst hx; decide)
          (nwp_of_no_paren ident (fun c hc => identChar_not_paren c (hid c hc)))
      · intro x hx hwsx
        rw [sandwich_getLast] at hx
        simp at hx; subst hx
        exact absurd hwsx (by decide)
    · intro x hx
      rw [ho, List.getLast?_append_of_ne_nil _ (by simp)] at hx
      simp only [List.getLast?_singleton, Option.some.injEq] at hx
      subst hx; rfl

end Highlight

namespace Highlight

/-! ### The class-name pass -/

theorem shrinkClass_inv (c : Char) (preRev r w rest : List Char)
    (h : shrinkClass c preRev r = some (w, rest)) :
    w ++ rest = c :: preRev.reverse ++ r ∧ w.head? = some c ∧
    (∀ x ∈ w, x = c ∨ x ∈ preRev) ∧ hasCBO rest = false := by
  induction preRev generalizing r with
  | nil =>
    have h' : (if (endBnd (c :: List.reverse ([] : List Char)) r &&
          !hasCBO r) = true then
        some (c :: List.reverse ([] : List Char), r) else none) = some (w, rest) := h
    by_cases hcond : (endBnd (c :: List.reverse ([] : List Char)) r && !hasCBO r) = true
    · rw [if_pos hcond] at h'
      simp only [Option.some.injEq, Prod.mk.injEq] at h'
      obtain ⟨h1, h2⟩ := h'
      subst h1; subst h2
      refine ⟨by simp, by simp, by simp, ?_⟩
      simpa using (Bool.and_eq_true_iff.mp hcond).2
    · rw [if_neg hcond] at h'; exact Option.noConfusion h'
  | cons x pre' ih =>
    have h' : (if (endBnd (c :: List.reverse (x :: pre')) r && !hasCBO r) = true then
        some (c :: List.reverse (x :: pre'), r)
      else shrinkClass c pre' (x :: r)) = some (w, rest) := h
    by_cases hcond : (endBnd (c :: List.reverse (x :: pre')) r && !hasCBO r) = true
    · rw [if_pos hcond] at h'
      simp only [Option.some.injEq, Prod.mk.injEq] at h'
      obtain ⟨h1, h2⟩ := h'
      subst h1; subst h2
      refine ⟨rfl, by simp, ?_, by simpa using (Bool.and_eq_true_iff.mp hcond).2⟩
      intro y hy
      rcases List.mem_cons.mp hy with rfl | hy'
      · exact Or.inl rfl
      · exact Or.inr (List.mem_reverse.mp hy')
    · rw [if_neg hcond] at h'
      obtain ⟨ha, hh, hmem, hcb⟩ := ih (x :: r) h'
      refine ⟨?_, hh, ?_, hcb⟩
      · rw [ha]
        simp [List.reverse_cons, List.append_assoc]
      · intro y hy
        rcases hmem y hy with rfl | hy'
        · exact Or.inl rfl
        · exact Or.inr (List.mem_cons_of_mem x hy')

theorem tryClass_inv (prev : Option Char) (t m o r : List Char)
    (h : tryClass prev t = some (m, o, r)) :
    m ≠ [] ∧ t = m ++ r ∧ (∀ x ∈ m, isIdentChar x = true) ∧ hasCBO r = false ∧
    o = mkTag blueBody ++ m ++ spanClose := by
  cases t with
  | nil => exact Option.noConfusion h
  | cons c t' =>
    have h' : (if (bnd prev c && c.isUpper) = true then
          (match shrinkClass c (List.takeWhile isIdentChar t').reverse
              (List.dropWhile isIdentChar t') with
          | some (w, rest) => some (w, mkTag blueBody ++ w ++ spanClose, rest)
          | none => none)
        else none) = some (m, o, r) := h
    by_cases hc : (bnd prev c && c.isUpper) = true
    · rw [if_pos hc] at h'
      split at h'
      · next w rest heq =>
        simp only [Option.some.injEq, Prod.mk.injEq] at h'
        obtain ⟨h1, h2, h3⟩ := h'
        subst h1; subst h2; subst h3
        obtain ⟨ha, hh, hmem, hcb⟩ := shrinkClass_inv c _ _ _ _ heq
        have hup : c.isUpper = true := (Bool.and_eq_true_iff.mp hc).2
        refine ⟨by intro hnil; rw [hnil] at hh; exact Option.noConfusion hh,
          ?_, ?_, hcb, rfl⟩
        · rw [ha, List.reverse_reverse]
          simp [List.takeWhile_append_dropWhile]
        · intro x hx
          rcases hmem x hx with rfl | hx'
          · exact upper_identChar x hup
          · exact mem_takeWhile (List.mem_reverse.mp hx')
      · exact Option.noConfusion h'
    · rw [if_neg hc] at h'; exact Option.noConfusion h'

theorem blueBody_mem : blueBody ∈ openBodies := by decide

theorem passClass_preserves : ∀ t acc d, wf false acc d t = true →
    wf false acc d (passClass t) = true ∧
    (noWsParen t = true →
      stripF false (passClass t) = stripF false t ∧ noWsParen (passClass t) = true) := by
  intro t acc d hwf
  refine scan_master tryClass ?_ ?_ ?_ ?_ t.length t none false acc d le_rfl hwf
  · intro prev t m o r hf
    obtain ⟨hne, heq, hid, _, _⟩ := tryClass_inv prev t m o r hf
    exact ⟨hne, heq, fun c hc => identChar_not_angle c (hid c hc)⟩
  · intro prev t m o r hf
    exact (tryClass_inv prev t m o r hf).2.2.2.1
  · intro prev t m o r hf
    obtain ⟨_, _, hid, _, ho⟩ := tryClass_inv prev t m o r hf
    exact ⟨blueBody, m, [], blueBody_mem, by rw [ho]; simp,
      fun c hc => identChar_not_angle c (hid c hc), by simp⟩
  · intro prev t m o r hf _
    obtain ⟨_, _, hid, _, ho⟩ := tryClass_inv prev t m o r hf
    have haf : ∀ c ∈ m, c ≠ '<' ∧ c ≠ '>' := fun c hc => identChar_not_angle c (hid c hc)
    refine ⟨by rw [ho]; exact stripF_sandwich _ m (openBodies_facts _ blueBody_mem).1 haf,
      ?_, ?_⟩
    · rw [ho]
      exact nwp_sandwich _ m (mkTag_nwp _ blueBody_mem)
        (fun x hx => by rw [mkTag_getLast] at hx; simp at hx; subst hx; decide)
        (nwp_of_no_paren m (fun c hc => identChar_not_paren c (hid c hc)))
    · intro x hx
      rw [ho, sandwich_getLast] at hx
      simp at hx; subst hx; rfl

/-! ### The decorator pass -/

theorem shrinkDec_inv (c : Char) (preRev r w rest : List Char)
    (h : shrinkDec c preRev r = some (w, rest)) :
    w ++ rest = '@' :: c :: preRev.reverse ++ r ∧ w.head? = some '@' ∧
    (∀ x ∈ w, x = '@' ∨ x = c ∨ x ∈ preRev) ∧ hasCBO rest = false := by
  induction preRev generalizing r with
  | nil =>
    have h' : (if (!hasCBO r) = true then
        some ('@' :: c :: List.reverse ([] : List Char), r) else none) = some (w, rest) := h
    by_cases hcond : (!hasCBO r) = true
    · rw [if_pos hcond] at h'
      simp only [Option.some.injEq, Prod.mk.injEq] at h'
      obtain ⟨h1, h2⟩ := h'
      subst h1; subst h2
      exact ⟨by simp, by simp, by simp, by simpa using hcond⟩
    · rw [if_neg hcond] at h'; exact Option.noConfusion h'
  | cons x pre' ih =>
    have h' : (if (!hasCBO r) = true then
        some ('@' :: c :: List.reverse (x :: pre'), r)
      else shrinkDec c pre' (x :: r)) = some (w, rest) := h
    by_cases hcond : (!hasCBO r) = true
    · rw [if_pos hcond] at h'
      simp only [Option.some.injEq, Prod.mk.injEq] at h'
      obtain ⟨h1, h2⟩ := h'
      subst h1; subst h2
      refine ⟨rfl, by simp, ?_, by simpa using hcond⟩
      intro y hy
      rcases List.mem_cons.mp hy with rfl | hy'
      · exact Or.inl rfl
      · rcases List.mem_cons.mp hy' with rfl | hy''
        · exact Or.inr (Or.inl rfl)
        · exact Or.inr (Or.inr (List.mem_reverse.mp hy''))
    · rw [if_neg hcond] at h'
      obtain ⟨ha, hh, hmem, hcb⟩ := ih (x :: r) h'
      refine ⟨?_, hh, ?_, hcb⟩
      · rw [ha]
        simp [List.reverse_cons, List.append_assoc]
      · intro y hy
        rcases hmem y hy with rfl | rfl | hy'
        · exact Or.inl rfl
        · exact Or.inr (Or.inl rfl)
        · exact Or.inr (Or.inr (List.mem_cons_of_mem x hy'))

theorem tryDec_inv (prev : Option Char) (t m o r : List Char)
    (h : tryDec prev t = some (m, o, r)) :
    m ≠ [] ∧ t = m ++ r ∧
    (∀ x ∈ m, x = '@' ∨ isIdentChar x = true) ∧ hasCBO r = false ∧
    o = mkTag pinkBody ++ m ++ spanClose := by
  cases t with
  | nil => exact Option.noConfusion h
  | cons a t1 =>
    cases t1 with
    | nil => exact Option.noConfusion h
    | cons c t' =>
      have h' : (if (a = '@' && isIdentStart c) = true then
            (match shrinkDec c (List.takeWhile isIdentChar t').reverse
                (List.dropWhile isIdentChar t') with
            | some (w, rest) => some (w, mkTag pinkBody ++ w ++ spanClose, rest)
            | none => none)
          else none) = some (m, o, r) := h
      by_cases hc : (a = '@' && isIdentStart c) = true
      · rw [if_pos hc] at h'
        split at h'
        · next w rest heq =>
          simp only [Option.some.injEq, Prod.mk.injEq] at h'
          obtain ⟨h1, h2, h3⟩ := h'
          subst h1; subst h2; subst h3
          obtain ⟨ha2, hh, hmem, hcb⟩ := shrinkDec_inv c _ _ _ _ heq
          obtain ⟨haat, hstart⟩ := Bool.and_eq_true_iff.mp hc
          have haat' : a = '@' := by simpa using haat
          subst haat'
          refine ⟨by intro hnil; rw [hnil] at hh; exact Option.noConfusion hh,
            ?_, ?_, hcb, rfl⟩
          · rw [ha2, List.reverse_reverse]
            simp [List.takeWhile_append_dropWhile]
          · intro x hx
            rcases hmem x hx with rfl | rfl | hx'
            · exact Or.inl rfl
            · exact Or.inr (identStart_identChar x hstart)
            · exact Or.inr (mem_takeWhile (List.mem_reverse.mp hx'))
        · exact Option.noConfusion h'
      · rw [if_neg hc] at h'; exact Option.noConfusion h'

theorem pinkBody_mem : pinkBody ∈ openBodies := by decide

theorem at_not_angle_ws : ('@' ≠ '<' ∧ '@' ≠ '>') ∧ '@' ≠ '(' := by decide

theorem passDec_preserves : ∀ t acc d, wf false acc d t = true →
    wf false acc d (passDec t) = true ∧
    (noWsParen t = true →
      stripF false (passDec t) = stripF false t ∧ noWsParen (passDec t) = true) := by
  intro t acc d hwf
  refine scan_master tryDec ?_ ?_ ?_ ?_ t.length t none false acc d le_rfl hwf
  · intro prev t m o r hf
    obtain ⟨hne, heq, hid, _, _⟩ := tryDec_inv prev t m o r hf
    refine ⟨hne, heq, ?_⟩
    intro c hc
    rcases hid c hc with rfl | hc'
    · exact at_not_angle_ws.1
    · exact identChar_not_angle c hc'
  · intro prev t m o r hf
    exact (tryDec_inv prev t m o r hf).2.2.2.1
  · intro prev t m o r hf
    obtain ⟨_, _, hid, _, ho⟩ := tryDec_inv prev t m o r hf
    refine ⟨pinkBody, m, [], pinkBody_mem, by rw [ho]; simp, ?_, by simp⟩
    intro c hc
    rcases hid c hc with rfl | hc'
    · exact at_not_angle_ws.1
    · exact identChar_not_angle c hc'
  · intro prev t m o r hf _
    obtain ⟨_, _, hid, _, ho⟩ := tryDec_inv prev t m o r hf
    have haf : ∀ c ∈ m, c ≠ '<' ∧ c ≠ '>' := by
      intro c hc
      rcases hid c hc with rfl | hc'
      · exact at_not_angle_ws.1
      · exact identChar_not_angle c hc'
    have hnp : ∀ c ∈ m, c ≠ '(' := by
      intro c hc
      rcases hid c hc with rfl | hc'
      · exact at_not_angle_ws.2
      · exact identChar_not_paren c hc'
    refine ⟨by rw [ho]; exact stripF_sandwich _ m (openBodies_facts _ pinkBody_mem).1 haf,
      ?_, ?_⟩
    · rw [ho]
      exact nwp_sandwich _ m (mkTag_nwp _ pinkBody_mem)
        (fun x hx => by rw [mkTag_getLast] at hx; simp at hx; subst hx; decide)
        (nwp_of_no_paren m hnp)
    · intro x hx
      rw [ho, sandwich_getLast] at hx
      simp at hx; subst hx; rfl

end Highlight

namespace Highlight

/-! ### The comment passes never fire on slash-free text -/

theorem tryCom1_none (prev : Option Char) (c : Char) (t' : List Char) (hc : c ≠ '/') :
    tryCom1 prev (c :: t') = none := by
  have hd : dropP ['/', '/'] (c :: t') = none := by
    simp only [dropP]
    rw [if_neg (fun h => hc h.symm)]
  unfold tryCom1
  rw [hd]

theorem tryCom2_none (prev : Option Char) (c : Char) (t' : List Char) (hc : c ≠ '/') :
    tryCom2 prev (c :: t') = none := by
  have hd : dropP ['/', '*'] (c :: t') = none := by
    simp only [dropP]
    rw [if_neg (fun h => hc h.symm)]
  unfold tryCom2
  rw [hd]

theorem scanCom1_id : ∀ (n : Nat) (t : List Char) (prev : Option Char),
    '/' ∉ t → scanG tryCom1 n prev t = t := by
  intro n
  induction n with
  | zero => intro t prev _; rfl
  | succ n ih =>
    intro t prev hsl
    cases t with
    | nil => rfl
    | cons c t' =>
      have hc : c ≠ '/' := fun h => hsl (by simp [h])
      show scanG tryCom1 (n + 1) prev (c :: t') = c :: t'
      rw [show scanG tryCom1 (n + 1) prev (c :: t') =
          c :: scanG tryCom1 n (some c) t' from by
        simp [scanG, tryCom1_none prev c t' hc]]
      rw [ih t' (some c) (fun h => hsl (by simp [h]))]

theorem scanCom2_id : ∀ (n : Nat) (t : List Char) (prev : Option Char),
    '/' ∉ t → scanG tryCom2 n prev t = t := by
  intro n
  induction n with
  | zero => intro t prev _; rfl
  | succ n ih =>
    intro t prev hsl
    cases t with
    | nil => rfl
    | cons c t' =>
      have hc : c ≠ '/' := fun h => hsl (by simp [h])
      rw [show scanG tryCom2 (n + 1) prev (c :: t') =
          c :: scanG tryCom2 n (some c) t' from by
        simp [scanG, tryCom2_none prev c t' hc]]
      rw [ih t' (some c) (fun h => hsl (by simp [h]))]

theorem passCom1_id (t : List Char) (h : '/' ∉ t) : passCom1 t = t :=
  scanCom1_id t.length t none h

theorem passCom2_id (t : List Char) (h : '/' ∉ t) : passCom2 t = t :=
  scanCom2_id t.length t none h

/-! ### Properties of the escape pass -/

theorem escChar_not_angle (c : Char) : ∀ x ∈ escChar c, x ≠ '<' ∧ x ≠ '>' := by
  unfold escChar
  split_ifs with h1 h2 h3 h4 h5 h6
  · decide
  · decide
  · decide
  · decide
  · decide
  · decide
  · intro x hx
    simp only [List.mem_singleton] at hx
    subst hx
    exact ⟨fun he => h2 he, fun he => h3 he⟩

theorem escChar_no_slash (c : Char) : ∀ x ∈ escChar c, x ≠ '/' := by
  unfold escChar
  split_ifs with h1 h2 h3 h4 h5 h6
  · decide
  · decide
  · decide
  · decide
  · decide
  · decide
  · intro x hx
    simp only [List.mem_singleton] at hx
    subst hx
    exact fun he => h6 he

theorem escChar_ne_nil (c : Char) : escChar c ≠ [] := by
  unfold escChar
  split_ifs <;> simp

theorem escChar_nwp (c : Char) : noWsParen (escChar c) = true := by
  unfold escChar
  split_ifs
  · decide
  · decide
  · decide
  · decide
  · decide
  · decide
  · rfl

theorem escChar_head (c : Char) : ∀ x, (escChar c).head? = some x → x = '&' ∨ x = c := by
  unfold escChar
  split_ifs <;> intro x hx <;>
    simp only [List.head?, Option.some.injEq] at hx
  · exact Or.inl hx.symm
  · exact Or.inl hx.symm
  · exact Or.inl hx.symm
  · exact Or.inl hx.symm
  · exact Or.inl hx.symm
  · exact Or.inl hx.symm
  · exact Or.inr hx.symm

theorem escChar_last (c : Char) :
    (escChar c).getLast? = some ';' ∨ (escChar c).getLast? = some c := by
  unfold escChar
  split_ifs
  · left; decide
  · left; decide
  · left; decide
  · left; decide
  · left; decide
  · left; decide
  · right; rfl

theorem escapeHtml_not_angle (t : List Char) :
    ∀ x ∈ escapeHtml t, x ≠ '<' ∧ x ≠ '>' := by
  induction t with
  | nil => simp [escapeHtml]
  | cons c t ih =>
    intro x hx
    rw [show escapeHtml (c :: t) = escChar c ++ escapeHtml t from rfl] at hx
    rcases List.mem_append.mp hx with hx' | hx'
    · exact escChar_not_angle c x hx'
    · exact ih x hx'

theorem escapeHtml_no_slash (t : List Char) : '/' ∉ escapeHtml t := by
  induction t with
  | nil => simp [escapeHtml]
  | cons c t ih =>
    intro hx
    rw [show escapeHtml (c :: t) = escChar c ++ escapeHtml t from rfl] at hx
    rcases List.mem_append.mp hx with hx' | hx'
    · exact escChar_no_slash c '/' hx' rfl
    · exact ih hx'

theorem escape_nwp (t : List Char) (h : noWsParen t = true) :
    noWsParen (escapeHtml t) = true := by
  induction t with
  | nil => rfl
  | cons c t ih =>
    rw [show escapeHtml (c :: t) = escChar c ++ escapeHtml t from rfl]
    refine nwp_append (escChar c) (escapeHtml t) (escChar_nwp c)
      (ih (nwp_tail c t h)) ?_
    intro x hx hws
    rcases escChar_last c with hl | hl
    · rw [hl] at hx
      simp only [Option.some.injEq] at hx
      subst hx
      exact absurd hws (by decide)
    · rw [hl] at hx
      simp only [Option.some.injEq] at hx
      subst hx
      cases t with
      | nil => simp [escapeHtml]
      | cons b t2 =>
        rw [show escapeHtml (b :: t2) = escChar b ++ escapeHtml t2 from rfl]
        rw [List.head?_append_of_ne_nil _ (escChar_ne_nil b)]
        intro hhead
        rcases escChar_head b _ hhead with hb | hb
        · exact absurd hb (by decide)
        · subst hb
          simp only [noWsParen, Bool.and_eq_true_iff] at h
          have := h.1
          rw [hws] at this
          simp at this

/-! ### Decoding inverts escaping -/

theorem decodeAux_escape : ∀ (n : Nat) (t : List Char), (escapeHtml t).length ≤ n →
    decodeAux n (escapeHtml t) = t := by
  intro n
  induction n with
  | zero =>
    intro t hlen
    cases t with
    | nil => rfl
    | cons c t' =>
      exfalso
      have h0 : escapeHtml (c :: t') = [] :=
        List.eq_nil_of_length_eq_zero (Nat.le_zero.mp hlen)
      rw [show escapeHtml (c :: t') = escChar c ++ escapeHtml t' from rfl] at h0
      exact escChar_ne_nil c (List.append_eq_nil.mp h0).1
  | succ n ih =>
    intro t hlen
    cases t with
    | nil => rfl
    | cons c t' =>
      rw [show escapeHtml (c :: t') = escChar c ++ escapeHtml t' from rfl] at hlen ⊢
      have hlen' : (escapeHtml t').length ≤ n := by
        rw [List.length_append] at hlen
        have h1 : 1 ≤ (escChar c).length :=
          List.length_pos.mpr (escChar_ne_nil c)
        omega
      by_cases h1 : c = '&'
      · subst h1
        rw [show escChar '&' = ['&', 'a', 'm', 'p', ';'] from rfl]
        rw [show decodeAux (n + 1) (['&', 'a', 'm', 'p', ';'] ++ escapeHtml t') =
            '&' :: decodeAux n (escapeHtml t') from by simp [decodeAux, dropP]]
        rw [ih t' hlen']
      · by_cases h2 : c = '<'
        · subst h2
          rw [show escChar '<' = ['&', 'l', 't', ';'] from rfl]
          rw [show decodeAux (n + 1) (['&', 'l', 't', ';'] ++ escapeHtml t') =
              '<' :: decodeAux n (escapeHtml t') from by simp [decodeAux, dropP]]
          rw [ih t' hlen']
        · by_cases h3 : c = '>'
          · subst h3
            rw [show escChar '>' = ['&', 'g', 't', ';'] from rfl]
            rw [show decodeAux (n + 1) (['&', 'g', 't', ';'] ++ escapeHtml t') =
                '>' :: decodeAux n (escapeHtml t') from by simp [decodeAux, dropP]]
            rw [ih t' hlen']
          · by_cases h4 : c = '"'
            · subst h4
              rw [show escChar '"' = ['&', 'q', 'u', 'o', 't', ';'] from rfl]
              rw [show decodeAux (n + 1) (['&', 'q', 'u', 'o', 't', ';'] ++
                    escapeHtml t') =
                  '"' :: decodeAux n (escapeHtml t') from by simp [decodeAux, dropP]]
              rw [ih t' hlen']
            · by_cases h5 : c = squote
              · subst h5
                rw [show escChar squote = ['&', '#', 'x', '2', '7', ';'] from rfl]
                rw [show decodeAux (n + 1) (['&', '#', 'x', '2', '7', ';'] ++
                      escapeHtml t') =
                    squote :: decodeAux n (escapeHtml t') from by
                  simp [decodeAux, dropP]]
                rw [ih t' hlen']
              · by_cases h6 : c = '/'
                · subst h6
                  rw [show escChar '/' = ['&', '#', 'x', '2', 'F', ';'] from rfl]
                  rw [show decodeAux (n + 1) (['&', '#', 'x', '2', 'F', ';'] ++
                        escapeHtml t') =
                      '/' :: decodeAux n (escapeHtml t') from by
                    simp [decodeAux, dropP]]
                  rw [ih t' hlen']
                · rw [show escChar c = [c] from by
                    unfold escChar
                    rw [if_neg h1, if_neg h2, if_neg h3, if_neg h4, if_neg h5,
                      if_neg h6]]
                  rw [show decodeAux (n + 1) ([c] ++ escapeHtml t') =
                      c :: decodeAux n (escapeHtml t') from by
                    simp [decodeAux, h1]]
                  rw [ih t' hlen']

theorem decode_escape (t : List Char) : decodeEntities (escapeHtml t) = t :=
  decodeAux_escape (escapeHtml t).length t le_rfl

end Highlight

namespace Highlight

/-! ### The string pass -/

theorem tryStrAlt_inv (delim t m r : List Char) (h : tryStrAlt delim t = some (m, r)) :
    ∃ content, m = delim ++ content ++ delim ∧ t = m ++ r ∧ ∀ c ∈ content, c ≠ '&' := by
  simp only [tryStrAlt] at h
  split at h
  · next r0 heq0 =>
    split at h
    · next rest heq1 =>
      simp only [Option.some.injEq, Prod.mk.injEq] at h
      obtain ⟨hm, hr⟩ := h
      refine ⟨r0.takeWhile (fun c => c ≠ '&'), hm.symm, ?_, ?_⟩
      · rw [← hm, ← hr]
        have h0 : t = delim ++ r0 := dropP_eq delim t r0 heq0
        have h1 : List.dropWhile (fun c => decide (c ≠ '&')) r0 = delim ++ rest :=
          dropP_eq delim _ rest heq1
        rw [h0]
        conv_lhs => rw [← List.takeWhile_append_dropWhile
          (fun c => decide (c ≠ '&')) r0]
        rw [h1]
        simp [List.append_assoc]
      · intro c hc
        have := mem_takeWhile hc
        simpa using this
    · exact Option.noConfusion h
  · exact Option.noConfusion h

theorem tryBacktick_inv (t m r : List Char) (h : tryBacktick t = some (m, r)) :
    ∃ content, m = '`' :: content ++ ['`'] ∧ t = m ++ r ∧ ∀ c ∈ content, c ≠ '`' := by
  cases t with
  | nil => exact Option.noConfusion h
  | cons b r0 =>
    simp only [tryBacktick] at h
    split at h
    · next hb =>
      split at h
      · next b2 rest heq2 =>
        split at h
        · next hb2 =>
          simp only [Option.some.injEq, Prod.mk.injEq] at h
          obtain ⟨hm, hr⟩ := h
          refine ⟨r0.takeWhile (fun c => c ≠ '`'), hm.symm, ?_, ?_⟩
          · rw [← hm, ← hr, hb]
            have hsplit : r0 = r0.takeWhile (fun c => c ≠ '`') ++ (b2 :: rest) := by
              rw [← heq2]
              exact (List.takeWhile_append_dropWhile _ r0).symm
            rw [show ('`' :: r0 : List Char) = '`' :: (r0.takeWhile (fun c => c ≠ '`') ++
                (b2 :: rest)) from by rw [← hsplit]]
            rw [hb2]
            simp [List.append_assoc]
          · intro c hc
            have := mem_takeWhile hc
            simpa using this
        · exact Option.noConfusion h
      · exact Option.noConfusion h
    · exact Option.noConfusion h

theorem quotDelim_ne_nil : (['&', 'q', 'u', 'o', 't', ';'] : List Char) ≠ [] := by
  decide

theorem aposDelim_ne_nil : (['&', '#', 'x', '2', '7', ';'] : List Char) ≠ [] := by
  decide

theorem quotDelim_last : (['&', 'q', 'u', 'o', 't', ';'] : List Char).getLast? =
    some ';' := by decide

theorem aposDelim_last : (['&', '#', 'x', '2', '7', ';'] : List Char).getLast? =
    some ';' := by decide

theorem tryStr_inv (prev : Option Char) (t m o r : List Char)
    (h : tryStr prev t = some (m, o, r)) :
    m ≠ [] ∧ t = m ++ r ∧ o = mkTag greenBody ++ m ++ spanClose ∧
      (m.getLast? = some ';' ∨ m.getLast? = some '`') := by
  simp only [tryStr] at h
  split at h
  · next m1 r1 heq1 =>
    simp only [Option.some.injEq, Prod.mk.injEq] at h
    obtain ⟨h1, h2, h3⟩ := h
    subst h1; subst h2; subst h3
    obtain ⟨content, hm, ht, _⟩ := tryStrAlt_inv _ t _ _ heq1
    refine ⟨by rw [hm]; simp, ht, rfl, Or.inl ?_⟩
    rw [hm, List.getLast?_append_of_ne_nil _ quotDelim_ne_nil]
    exact quotDelim_last
  · next heq1 =>
    split at h
    · next m2 r2 heq2 =>
      simp only [Option.some.injEq, Prod.mk.injEq] at h
      obtain ⟨h1, h2, h3⟩ := h
      subst h1; subst h2; subst h3
      obtain ⟨content, hm, ht, _⟩ := tryStrAlt_inv _ t _ _ heq2
      refine ⟨by rw [hm]; simp, ht, rfl, Or.inl ?_⟩
      rw [hm, List.getLast?_append_of_ne_nil _ aposDelim_ne_nil]
      exact aposDelim_last
    · next heq2 =>
      split at h
      · next m3 r3 heq3 =>
        simp only [Option.some.injEq, Prod.mk.injEq] at h
        obtain ⟨h1, h2, h3⟩ := h
        subst h1; subst h2; subst h3
        obtain ⟨content, hm, ht, _⟩ := tryBacktick_inv t _ _ heq3
        refine ⟨by rw [hm]; simp, ht, rfl, Or.inr ?_⟩
        rw [hm]
        rw [show ('`' : Char) :: content ++ ['`'] = ('`' :: content) ++ ['`'] from rfl]
        rw [List.getLast?_append_of_ne_nil _ (by simp)]
        rfl
      · exact Option.noConfusion h

theorem greenBody_mem : greenBody ∈ openBodies := by decide

/-- The string pass on angle-free input: preserves well-formedness, strips back
to the input, and preserves `noWsParen`. -/
theorem passStr_scan : ∀ (n : Nat) (t : List Char) (prev : Option Char)
    (acc : List Char) (d : Nat), t.length ≤ n →
    (∀ c ∈ t, c ≠ '<' ∧ c ≠ '>') → wf false acc d t = true →
    wf false acc d (scanG tryStr n prev t) = true ∧
    stripF false (scanG tryStr n prev t) = stripF false t ∧
    (noWsParen t = true → noWsParen (scanG tryStr n prev t) = true) := by
  intro n
  induction n with
  | zero => intro t prev acc d _ _ hwf; exact ⟨hwf, rfl, fun h => h⟩
  | succ n ih =>
    intro t prev acc d hlen haf hwf
    cases t with
    | nil =>
      refine ⟨by simpa [scanG] using hwf, rfl, fun _ => by simp [scanG]; rfl⟩
    | cons c t' =>
      have hlen' : t'.length ≤ n := by simpa [Nat.succ_le_succ_iff] using hlen
      have haf' : ∀ x ∈ t', x ≠ '<' ∧ x ≠ '>' := fun x hx => haf x (by simp [hx])
      cases hf : tryStr prev (c :: t') with
      | some val =>
        obtain ⟨m, o, r⟩ := val
        obtain ⟨hm0, heq, ho, hlast⟩ := tryStr_inv prev (c :: t') m o r hf
        have hmaf : ∀ x ∈ m, x ≠ '<' ∧ x ≠ '>' := by
          intro x hx; exact haf x (by rw [heq]; simp [hx])
        have hraf : ∀ x ∈ r, x ≠ '<' ∧ x ≠ '>' := by
          intro x hx; exact haf x (by rw [heq]; simp [hx])
        have hrlen : r.length ≤ n := by
          have h1 : (c :: t').length = m.length + r.length := by
            rw [heq, List.length_append]
          have h2 : 1 ≤ m.length := List.length_pos.mpr hm0
          simp only [List.length_cons] at h1
          omega
        have hwfr : wf false [] d r = true := by
          rw [wf_false_acc acc [], heq, wf_plain m hmaf] at hwf
          exact hwf
        have ihr := ih r (match m.getLast? with | some x => some x | none => prev)
          [] d hrlen hraf hwfr
        rw [show scanG tryStr (n + 1) prev (c :: t') =
            o ++ scanG tryStr n (match m.getLast? with | some x => some x | none => prev)
              r from by simp [scanG, hf]]
        set R := scanG tryStr n (match m.getLast? with | some x => some x | none => prev)
          r with hR
        have hassoc : o ++ R = mkTag greenBody ++ (m ++ (spanClose ++ R)) := by
          rw [ho]; simp [List.append_assoc]
        refine ⟨?_, ?_, ?_⟩
        · rw [hassoc, wf_openTag greenBody greenBody_mem, wf_plain m hmaf, wf_closeTag]
          simpa using ihr.1
        · rw [hassoc, stripF_openTag greenBody (openBodies_facts _ greenBody_mem).1,
            stripF_plain m hmaf, stripF_closeTag, ihr.2.1, heq, stripF_plain m hmaf]
        · intro hnwpt
          have hnwpr : noWsParen r = true := by
            rw [heq] at hnwpt; exact nwp_append_right m r hnwpt
          have hnwpm : noWsParen m = true := by
            rw [heq] at hnwpt; exact nwp_append_left m r hnwpt
          rw [ho]
          refine nwp_append _ R ?_ (ihr.2.2 hnwpr) ?_
          · exact nwp_sandwich _ m (mkTag_nwp _ greenBody_mem)
              (fun x hx => by rw [mkTag_getLast] at hx; simp at hx; subst hx; decide)
              hnwpm
          · intro x hx hws
            rw [sandwich_getLast] at hx
            simp at hx; subst hx
            exact absurd hws (by decide)
      | none =>
        have hc := haf c (by simp)
        rw [show scanG tryStr (n + 1) prev (c :: t') =
            c :: scanG tryStr n (some c) t' from by simp [scanG, hf]]
        set R := scanG tryStr n (some c) t' with hRdef
        have hwf' : wf false [] d t' = true := by
          have := hwf
          simp only [wf, if_neg hc.1, if_neg hc.2] at this
          exact this
        have ihr := ih t' (some c) [] d hlen' haf' hwf'
        refine ⟨?_, ?_, ?_⟩
        · simp only [wf, if_neg hc.1, if_neg hc.2]
          exact ihr.1
        · simp only [stripF, if_neg hc.1]
          rw [ihr.2.1]
        · intro hnwpt
          have hnwpt' : noWsParen t' = true := nwp_tail _ _ hnwpt
          refine nwp_cons_of c R (ihr.2.2 hnwpt') ?_
          intro y hy
          rw [hRdef] at hy
          have Hhead : ∀ prev t m o r, tryStr prev t = some (m, o, r) →
              ∃ o2, o = '<' :: o2 := by
            intro prev1 t1 m1 o1 r1 hf1
            obtain ⟨_, _, ho1, _⟩ := tryStr_inv prev1 t1 m1 o1 r1 hf1
            exact ⟨(greenBody ++ ['>']) ++ m1 ++ spanClose,
              by rw [ho1]; simp [mkTag, List.append_assoc]⟩
          rcases scanG_head tryStr Hhead n (some c) t' with h0 | h0 | h0
          · rw [h0] at hy; simp at hy
          · rw [h0] at hy
            cases t' with
            | nil => simp at hy
            | cons z t'' =>
              simp only [List.head?] at hy
              have hz : z = y := by simpa using hy
              subst hz
              simp only [noWsParen, Bool.and_eq_true_iff] at hnwpt
              have h1 := hnwpt.1
              revert h1
              cases isWsChar c && z == '(' <;> simp
          · rw [h0] at hy
            have : y = '<' := by simpa using hy.symm
            subst this
            simp

theorem passStr_preserves (t : List Char) (acc : List Char) (d : Nat)
    (haf : ∀ c ∈ t, c ≠ '<' ∧ c ≠ '>') (hwf : wf false acc d t = true) :
    wf false acc d (passStr t) = true ∧
    stripF false (passStr t) = stripF false t ∧
    (noWsParen t = true → noWsParen (passStr t) = true) :=
  passStr_scan t.length t none acc d le_rfl haf hwf

end Highlight

namespace Highlight

/-- The central pipeline invariant: the output of `highlightCode` is
well-formed markup (every `<`…`>` region is one of the nine fixed tag tokens,
properly balanced), and — when the input has no whitespace immediately before
a `(` — stripping all tags from the output recovers exactly the escaped
input, and the output again has no whitespace-before-`(`. -/
theorem pipeline_invariants (s : List Char) :
    wf false [] 0 (highlightCode s) = true ∧
    (noWsParen s = true → stripF false (highlightCode s) = escapeHtml s ∧
      noWsParen (highlightCode s) = true) := by
  have he_af : ∀ c ∈ escapeHtml s, c ≠ '<' ∧ c ≠ '>' := escapeHtml_not_angle s
  have he_sl : '/' ∉ escapeHtml s := escapeHtml_no_slash s
  have he_wf : wf false [] 0 (escapeHtml s) = true := by
    have h := wf_plain (escapeHtml s) he_af 0 []
    simpa using h
  obtain ⟨h3wf, h3strip, h3nwp⟩ := passStr_preserves (escapeHtml s) [] 0 he_af he_wf
  obtain ⟨h4wf, h4cond⟩ := passKw_preserves (passStr (escapeHtml s)) [] 0 h3wf
  obtain ⟨h5wf, h5cond⟩ := passType_preserves _ [] 0 h4wf
  obtain ⟨h6wf, h6cond⟩ := passNum_preserves _ [] 0 h5wf
  obtain ⟨h7wf, h7cond⟩ := passFun_preserves _ [] 0 h6wf
  obtain ⟨h8wf, h8cond⟩ := passClass_preserves _ [] 0 h7wf
  obtain ⟨h9wf, h9cond⟩ := passDec_preserves _ [] 0 h8wf
  have hcode : highlightCode s = passDec (passClass (passFun (passNum (passType
      (passKw (passStr (escapeHtml s))))))) := by
    unfold highlightCode
    rw [passCom1_id _ he_sl, passCom2_id _ he_sl]
  constructor
  · rw [hcode]; exact h9wf
  · intro hnwps
    have he_nwp : noWsParen (escapeHtml s) = true := escape_nwp s hnwps
    have h3n : noWsParen (passStr (escapeHtml s)) = true := h3nwp he_nwp
    obtain ⟨h4s, h4n⟩ := h4cond h3n
    obtain ⟨h5s, h5n⟩ := h5cond h4n
    obtain ⟨h6s, h6n⟩ := h6cond h5n
    obtain ⟨h7s, h7n⟩ := h7cond h6n
    obtain ⟨h8s, h8n⟩ := h8cond h7n
    obtain ⟨h9s, h9n⟩ := h9cond h8n
    refine ⟨?_, by rw [hcode]; exact h9n⟩
    rw [hcode, h9s, h8s, h7s, h6s, h5s, h4s, h3strip]
    have h := stripF_plain (escapeHtml s) he_af []
    simpa [stripF] using h

/-- Round-trip: on inputs with no whitespace-before-`(`, stripping the tags
from the highlighted output and decoding the entities recovers the input. -/
theorem roundTrip (s : List Char) (h : noWsParen s = true) :
    decodeEntities (stripF false (highlightCode s)) = s := by
  rw [((pipeline_invariants s).2 h).1, decode_escape]

end Highlight

namespace Highlight

theorem angleFree_escape (t : List Char) : angleFree (escapeHtml t) = true := by
  simp only [angleFree, List.all_eq_true]
  intro c hc
  obtain ⟨h1, h2⟩ := escapeHtml_not_angle t c hc
  simp [h1, h2]

/-! ### The claims -/

/-- C1 (amended): for every input string in which no whitespace character
(any character of the full JS `\s` set, as checked by `isWsChar`) immediately
precedes a `(`, stripping all inserted tags from `highlightCode`'s output and
decoding the six escape sequences yields exactly the input.  (The
unrestricted claim is false: the call-site pass rewrites `ident \s* (` to
`tag ident close (`, deleting the matched whitespace — see the
counterexample.) -/
theorem c1_round_trip (s : String) (h : noWsParen s.data = true) :
    decodeEntities (stripF false (highlightCode s.data)) = s.data :=
  roundTrip s.data h

theorem c1_round_trip_witness :
    noWsParen "const x = 1;".data = true ∧
    decodeEntities (stripF false (highlightCode "const x = 1;".data)) =
      "const x = 1;".data :=
  ⟨by decide, c1_round_trip "const x = 1;" (by decide)⟩

/-- C1 counterexample: on `"foo ()"` the function-name pass deletes the space
between the identifier and the parenthesis, so the strip-and-decode
round trip does not recover the input. -/
theorem c1_round_trip_counterexample :
    decodeEntities (stripF false (highlightCode "foo ()".data)) ≠ "foo ()".data := by
  decide

set_option maxRecDepth 10000 in
/-- C2 (code bug): on input `const x = 'return value';` the keyword pass DOES
tag `return` inside the already-emitted string span — the lookahead guard
`(?![^<]*>)` only rejects positions inside a tag's angle brackets, not
positions inside a span's content, contradicting the code's own comment that
strings are tagged first "to prevent highlighting inside them".  The output
contains a purple keyword span nested inside the green string span. -/
theorem c2_keyword_inside_string :
    highlightCode ("const x = ".data ++ [squote] ++ "return value".data ++
        [squote] ++ [';']) =
      ("<span class=\"text-purple-400\">const</span> x = " ++
       "<span class=\"text-green-400\">&#x27;<span class=\"text-purple-400\">" ++
       "return</span> value&#x27;</span>;").data ∧
    containsSeg (mkTag purpleBody ++ "return".data ++ spanClose)
      (highlightCode ("const x = ".data ++ [squote] ++ "return value".data ++
        [squote] ++ [';'])) = true := by
  exact ⟨by decide, by decide⟩

/-- C3 (code bug): the comment passes can never fire, because `escapeHtml`
runs first and rewrites every `/` to `&#x2F;`, so the comment regexes (which
look for literal `//` and `/*`) never match.  On the scenario input
`"// hello\nconst x = 5;"` no comment span is emitted: the output keeps the
escaped slashes untagged (while `const` and `5` are tagged). -/
theorem c3_comment_pass_dead :
    highlight "// hello\nconst x = 5;" =
      ("&#x2F;&#x2F; hello\n<span class=\"text-purple-400\">const</span> x = " ++
       "<span class=\"text-orange-400\">5</span>;") ∧
    containsSeg (mkTag grayBody) (highlightCode "// hello\nconst x = 5;".data) =
      false := by
  exact ⟨by rfl, by decide⟩

/-- C4: no raw `<` or `>` from the input survives: `escapeHtml` output is
angle-free, and every `<`/`>` of the final output lies inside one of the nine
fixed tag tokens (that is exactly what `wf` checks, and it also checks the
tokens are balanced). -/
theorem c4_no_unsafe_leak (s : String) :
    wf false [] 0 (highlightCode s.data) = true ∧
    angleFree (escapeHtml s.data) = true :=
  ⟨(pipeline_invariants s.data).1, angleFree_escape s.data⟩

/-- C5: the highlighter is a total function (modelled by a total Lean
function); the empty input yields the empty output, and inputs with
unbalanced quote or comment delimiters yield well-defined output. -/
theorem c5_totality_empty :
    highlight "" = "" ∧ highlight "\"abc" = "&quot;abc" ∧
    highlight "/*x" = "&#x2F;*x" := by
  exact ⟨rfl, rfl, rfl⟩

/-- C6: determinism — the output depends only on the input string; two
invocations on equal inputs produce identical output. -/
theorem c6_determinism (s1 s2 : String) (h : s1 = s2) :
    highlight s1 = highlight s2 := by rw [h]

theorem c6_determinism_witness : highlight "x" = highlight "x" :=
  c6_determinism "x" "x" rfl

/-- C7: `highlightCode` is exactly the composition of the ordered passes
escape → line comments → block comments → strings → keywords → types →
numbers → call sites → class names → annotations, with the escape of
`& < > " ' /` first and each pass one whole-string substitution. -/
theorem c7_pass_composition (s : String) :
    highlightCode s.data = passDec (passClass (passFun (passNum (passType
      (passKw (passStr (passCom2 (passCom1 (escapeHtml s.data))))))))) :=
  rfl

/-- C8 (amended): the call-site pass is applied before the capitalized-name
pass (see the composition order), and a capitalized identifier followed by
`(` is wrapped in a function-name span; but the class-name pass then re-tags
the identifier inside that span, so it ends up carrying BOTH categories with
the class-name span innermost — not the function-name category instead of
the class-name category as claimed. -/
theorem c8_constructor_precedence :
    (∀ s : String, highlightCode s.data = passDec (passClass (passFun (passNum
      (passType (passKw (passStr (passCom2 (passCom1 (escapeHtml s.data)))))))))) ∧
    highlight "Foo()" =
      ("<span class=\"text-yellow-400\"><span class=\"text-blue-400\">Foo" ++
       "</span></span>()") := by
  exact ⟨fun s => rfl, by rfl⟩

/-- C8 counterexample: on `Foo()` the class-name span IS emitted (nested
inside the function-name span), so the identifier does not carry the
function-name category *rather than* the class-name category. -/
theorem c8_constructor_precedence_counterexample :
    containsSeg (mkTag blueBody ++ "Foo".data ++ spanClose)
      (highlightCode "Foo()".data) = true := by
  decide

/-- C9: implicit tag well-formedness — `wf` checks that every maximal
`<`…`>` region of the output is one of the nine fixed tokens (the eight
category opening tags or `</span>`), that a closing tag only appears at
positive depth, and that all spans are closed: the inserted tags are balanced
and properly nested, and text inside a tag's angle brackets is never
re-tagged. -/
theorem c9_tag_wellformedness (s : String) :
    wf false [] 0 (highlightCode s.data) = true :=
  (pipeline_invariants s.data).1

/-- C10: the string pass can only match a quoted literal whose (escaped)
contents contain no `&` — the `[^&]*` of the pattern cannot cross the `&`
introduced by escaping — while a backtick literal is matched regardless;
concretely, `"a<b"` (whose contents escape to `a&lt;b`) is left untagged,
while a backtick literal with the same contents is tagged. -/
theorem c10_string_pass_gap :
    (∀ (prev : Option Char) (t m o r : List Char), tryStr prev t = some (m, o, r) →
      m.head? = some '`' ∨
      ∃ delim inner, (delim = "&quot;".data ∨ delim = "&#x27;".data) ∧
        m = delim ++ inner ++ delim ∧ ∀ c ∈ inner, c ≠ '&') ∧
    highlight "\"a<b\"" = "&quot;a&lt;b&quot;" ∧
    highlight "`a<b`" = "<span class=\"text-green-400\">`a&lt;b`</span>" := by
  refine ⟨?_, by rfl, by rfl⟩
  intro prev t m o r h
  simp only [tryStr] at h
  split at h
  · next m1 r1 heq1 =>
    simp only [Option.some.injEq, Prod.mk.injEq] at h
    obtain ⟨h1, _, _⟩ := h
    subst h1
    obtain ⟨content, hm, _, hamp⟩ := tryStrAlt_inv _ t _ _ heq1
    exact Or.inr ⟨_, content, Or.inl rfl, hm, hamp⟩
  · next heq1 =>
    split at h
    · next m2 r2 heq2 =>
      simp only [Option.some.injEq, Prod.mk.injEq] at h
      obtain ⟨h1, _, _⟩ := h
      subst h1
      obtain ⟨content, hm, _, hamp⟩ := tryStrAlt_inv _ t _ _ heq2
      exact Or.inr ⟨_, content, Or.inr rfl, hm, hamp⟩
    · next heq2 =>
      split at h
      · next m3 r3 heq3 =>
        simp only [Option.some.injEq, Prod.mk.injEq] at h
        obtain ⟨h1, _, _⟩ := h
        subst h1
        obtain ⟨content, hm, _, _⟩ := tryBacktick_inv t _ _ heq3
        exact Or.inl (by rw [hm]; rfl)
      · exact Option.noConfusion h

theorem c10_string_pass_gap_witness :
    ("&quot;a&quot;".data.head? = some '`' ∨
      ∃ delim inner, (delim = "&quot;".data ∨ delim = "&#x27;".data) ∧
        "&quot;a&quot;".data = delim ++ inner ++ delim ∧ ∀ c ∈ inner, c ≠ '&') :=
  c10_string_pass_gap.1 none "&quot;a&quot;".data "&quot;a&quot;".data
    (mkTag greenBody ++ "&quot;a&quot;".data ++ spanClose) [] (by rfl)

end Highlight
